import Mathlib

/-!
Verification development for the awsm-env repository (declaration parser,
placeholder expander, secret-resolution engine, providers, formatter).

Shallow embedding conventions:
* Strings are handled as `List Char` internally; `String` at the API surface.
* Rust `HashMap<String,String>` lookup tables are embedded as functions
  `String → Option String`; `IndexMap` as an association list with the
  insert-or-replace-in-place / append-if-new semantics of `IndexMap::insert`.
* Fallible Rust code returning `Result<_, Error>` becomes `Except Error _`.
  Rust panics (`unreachable!`, `expect`) are embedded as the dedicated
  `Error.Panic` outcome, which never occurs on the reachable paths (proved
  where needed).
* `regex \w` is modelled on its ASCII fragment (letters, digits, underscore),
  which is the character class the repository relies on.
-/

/-- ASCII fragment of the `\w` character class used by the
`RE_PLACEHOLDER` regex `\$(\w+)` in src/lib.rs. -/
def isWordChar (c : Char) : Bool :=
  c.isAlpha || c.isDigit || c == '_'

/-- The internal escape marker from src/lib.rs:
`static MARKER: &str = "\u{FFFF}ESCAPED\u{FFFF}"`. -/
def marker : List Char :=
  ['￿', 'E', 'S', 'C', 'A', 'P', 'E', 'D', '￿']

/-- `marker` as a `String`. -/
def markerStr : String := String.mk marker

/-- Embeds `id.replace("$$", MARKER)` (Rust `str::replace` rewrites
non-overlapping occurrences left to right). -/
def replaceEsc : List Char → List Char
  | [] => []
  | [c] => [c]
  | c :: c2 :: rest =>
      if c = '$' ∧ c2 = '$' then marker ++ replaceEsc rest
      else c :: replaceEsc (c2 :: rest)

/-- One step of `output.replace(MARKER, "$")`: `n` is the number of marker
characters already consumed from the input (a pending partial match).  On a
mismatch the pending characters are emitted verbatim; since `marker` contains
its first character `'￿'` nowhere else, a fresh match can only restart at
the mismatching character itself, so this left-to-right automaton is exactly
Rust's non-overlapping `str::replace(MARKER, "$")`. -/
def rmAux : Nat → List Char → List Char
  | n, [] => marker.take n
  | n, c :: rest =>
    if c = marker.getD n ' ' then
      if n = 8 then '$' :: rmAux 0 rest else rmAux (n + 1) rest
    else
      marker.take n ++ (if c = '￿' then rmAux 1 rest else c :: rmAux 0 rest)

/-- Embeds `output.replace(MARKER, "$")`, the restore step of
`replace_placeholders`. -/
def replaceMarker (l : List Char) : List Char := rmAux 0 l

/-- Scanner state for the `\$(\w+)` replace_all pass: either outside any
match, just after a `$`, or inside the word following a `$` (with the word
characters accumulated so far). -/
inductive ScanMode where
  | top : ScanMode
  | afterDollar : ScanMode
  | word : List Char → ScanMode

/-- The mirror of the error-record enum from src/error.rs.  `Panic` is the
extra outcome standing for a Rust panic (`unreachable!` / `expect`); the SDK
error payloads (whose `PartialEq` in the source ignores the payload) are
dropped, the API/not-found errors keep the identifier they name. -/
inductive Error where
  | ParsingError : String → Error
  | AwsSmSdkError : Error
  | AwsSmApiError : String → Error
  | AwsPsSdkError : Error
  | PlaceholderMissing : String → Error
  | ParameterNotFound : String → Error
  | Panic : String → Error
deriving DecidableEq, Repr

deriving instance DecidableEq for Except

/-- Output contribution of one complete `\$(\w+)` match: the replacement
closure in src/lib.rs pushes the mapped value on a hit and the empty string
on a miss. -/
def emitOut (ph : String → Option String) (acc out : List Char) : List Char :=
  match ph (String.mk acc) with
  | some v => v.toList ++ out
  | none => out

/-- Effect of one complete `\$(\w+)` match on the `missing` slot: the closure
overwrites `missing` on every miss, so the slot ends up holding the
*last* missing name of the scan.  `m` is the slot value produced by the rest
of the scan (to the right), which therefore takes precedence. -/
def emitMiss (ph : String → Option String) (acc : List Char) (m : Option String) :
    Option String :=
  match ph (String.mk acc) with
  | some _ => m
  | none => some (m.getD (String.mk acc))

/-- Output of `re.replace_all` for `\$(\w+)` (the single left-to-right pass of
the regex engine, written as a character automaton).  The one-pass Rust
closure both rewrites and records misses; it is split here into an output
projection (`scanOut`) and a missing-slot projection (`scanMiss`). -/
def scanOut (ph : String → Option String) : ScanMode → List Char → List Char
  | .top, [] => []
  | .top, c :: rest =>
      if c = '$' then scanOut ph .afterDollar rest
      else c :: scanOut ph .top rest
  | .afterDollar, [] => ['$']
  | .afterDollar, c :: rest =>
      if isWordChar c then scanOut ph (.word [c]) rest
      else if c = '$' then '$' :: scanOut ph .afterDollar rest
      else '$' :: c :: scanOut ph .top rest
  | .word acc, [] => emitOut ph acc []
  | .word acc, c :: rest =>
      if isWordChar c then scanOut ph (.word (acc ++ [c])) rest
      else if c = '$' then emitOut ph acc (scanOut ph .afterDollar rest)
      else emitOut ph acc (c :: scanOut ph .top rest)

/-- Final value of the `missing` slot after the `replace_all` pass (see
`scanOut` and `emitMiss`). -/
def scanMiss (ph : String → Option String) : ScanMode → List Char → Option String
  | .top, [] => none
  | .top, c :: rest =>
      if c = '$' then scanMiss ph .afterDollar rest
      else scanMiss ph .top rest
  | .afterDollar, [] => none
  | .afterDollar, c :: rest =>
      if isWordChar c then scanMiss ph (.word [c]) rest
      else if c = '$' then scanMiss ph .afterDollar rest
      else scanMiss ph .top rest
  | .word acc, [] => emitMiss ph acc none
  | .word acc, c :: rest =>
      if isWordChar c then scanMiss ph (.word (acc ++ [c])) rest
      else if c = '$' then emitMiss ph acc (scanMiss ph .afterDollar rest)
      else emitMiss ph acc (scanMiss ph .top rest)

/-- The `$name` tokens found by the `\$(\w+)` pass, in scan order (same
automaton as `scanOut` / `scanMiss`). -/
def tokenNames : ScanMode → List Char → List String
  | .top, [] => []
  | .top, c :: rest =>
      if c = '$' then tokenNames .afterDollar rest
      else tokenNames .top rest
  | .afterDollar, [] => []
  | .afterDollar, c :: rest =>
      if isWordChar c then tokenNames (.word [c]) rest
      else if c = '$' then tokenNames .afterDollar rest
      else tokenNames .top rest
  | .word acc, [] => [String.mk acc]
  | .word acc, c :: rest =>
      if isWordChar c then tokenNames (.word (acc ++ [c])) rest
      else if c = '$' then String.mk acc :: tokenNames .afterDollar rest
      else String.mk acc :: tokenNames .top rest

/-- The `$name` tokens of a pattern after `$$`-escaping, in left-to-right
order: exactly the non-escaped tokens `replace_placeholders` resolves. -/
def tokensOf (id : String) : List String :=
  tokenNames .top (replaceEsc id.toList)

/-- Embeds `replace_placeholders` from src/lib.rs: neutralize `$$` with the
marker, run the `\$(\w+)` substitution pass recording missing names, fail
with the recorded missing name if any, otherwise restore `$` from the
marker. -/
def replace_placeholders (id : String) (ph : String → Option String) :
    Except Error String :=
  let escaped := replaceEsc id.toList
  match scanMiss ph .top escaped with
  | some name => .error (.PlaceholderMissing name)
  | none => .ok (String.mk (replaceMarker (scanOut ph .top escaped)))

/-- Mirror of the unit test `test_replaces_placeholders` in src/lib.rs. -/
example :
    replace_placeholders "$foo/bar/$baz"
      (fun n => if n = "foo" then some "123" else if n = "baz" then some "456" else none)
      = .ok "123/bar/456" := by decide

/-- Mirror of the unit test `test_handles_escapes` in src/lib.rs. -/
example :
    replace_placeholders "$$foo/bar/$baz"
      (fun n => if n = "foo" then some "123" else if n = "baz" then some "456" else none)
      = .ok "$foo/bar/456" := by decide

/-- Mirror of the unit test `test_supports_underscores_in_placeholders`. -/
example :
    replace_placeholders "bar/$baz_1"
      (fun n => if n = "baz_1" then some "456" else none)
      = .ok "bar/456" := by decide

/-! ### Small-step lemmas for the expander scan -/

theorem replaceEsc_esc (l : List Char) :
    replaceEsc ('$' :: '$' :: l) = marker ++ replaceEsc l := by
  simp [replaceEsc]

theorem replaceEsc_cons (c : Char) (l : List Char) (h : c ≠ '$') :
    replaceEsc (c :: l) = c :: replaceEsc l := by
  cases l with
  | nil => rfl
  | cons c2 l2 => simp [replaceEsc, h]

theorem replaceEsc_dollar_cons (c : Char) (l : List Char) (h : c ≠ '$') :
    replaceEsc ('$' :: c :: l) = '$' :: replaceEsc (c :: l) := by
  simp [replaceEsc, h]

theorem replaceEsc_dollar_nil : replaceEsc ['$'] = ['$'] := rfl

theorem replaceEsc_append (a l : List Char) (h : ∀ c ∈ a, c ≠ '$') :
    replaceEsc (a ++ l) = a ++ replaceEsc l := by
  induction a with
  | nil => rfl
  | cons c a2 ih =>
      rw [List.cons_append, replaceEsc_cons c _ (h c (by simp)),
        ih (fun x hx => h x (by simp [hx]))]
      rfl

theorem replaceMarker_marker (l : List Char) :
    replaceMarker (marker ++ l) = '$' :: replaceMarker l := rfl

theorem replaceMarker_cons (c : Char) (l : List Char) (h : c ≠ '￿') :
    replaceMarker (c :: l) = c :: replaceMarker l := by
  have h2 : ¬(c = marker.getD 0 ' ') := by simpa [marker] using h
  show rmAux 0 (c :: l) = c :: rmAux 0 l
  rw [rmAux, if_neg h2, if_neg h]
  simp

theorem replaceMarker_append (a l : List Char) (h : ∀ c ∈ a, c ≠ '￿') :
    replaceMarker (a ++ l) = a ++ replaceMarker l := by
  induction a with
  | nil => rfl
  | cons c a2 ih =>
      rw [List.cons_append, replaceMarker_cons c _ (h c (by simp)),
        ih (fun x hx => h x (by simp [hx]))]
      rfl

theorem isWordChar_ne_dollar (c : Char) (h : isWordChar c = true) : c ≠ '$' := by
  rintro rfl
  simp [isWordChar] at h

theorem scanMiss_top_dollar (ph : String → Option String) (l : List Char) :
    scanMiss ph .top ('$' :: l) = scanMiss ph .afterDollar l := by
  rw [scanMiss]
  simp

theorem scanMiss_top_cons (ph : String → Option String) (c : Char) (l : List Char)
    (h : c ≠ '$') :
    scanMiss ph .top (c :: l) = scanMiss ph .top l := by
  rw [scanMiss]
  simp [h]

theorem scanMiss_ad_word (ph : String → Option String) (c : Char) (l : List Char)
    (h : isWordChar c = true) :
    scanMiss ph .afterDollar (c :: l) = scanMiss ph (.word [c]) l := by
  rw [scanMiss]
  simp [h]

theorem scanMiss_ad_dollar (ph : String → Option String) (l : List Char) :
    scanMiss ph .afterDollar ('$' :: l) = scanMiss ph .afterDollar l := by
  rw [scanMiss]
  simp [isWordChar]

theorem scanMiss_ad_other (ph : String → Option String) (c : Char) (l : List Char)
    (h1 : isWordChar c = false) (h2 : c ≠ '$') :
    scanMiss ph .afterDollar (c :: l) = scanMiss ph .top l := by
  rw [scanMiss]
  simp [h1, h2]

theorem scanMiss_word_word (ph : String → Option String) (acc : List Char) (c : Char)
    (l : List Char) (h : isWordChar c = true) :
    scanMiss ph (.word acc) (c :: l) = scanMiss ph (.word (acc ++ [c])) l := by
  rw [scanMiss]
  simp [h]

theorem scanMiss_word_dollar (ph : String → Option String) (acc : List Char)
    (l : List Char) :
    scanMiss ph (.word acc) ('$' :: l) = emitMiss ph acc (scanMiss ph .afterDollar l) := by
  rw [scanMiss]
  simp [isWordChar]

theorem scanMiss_word_other (ph : String → Option String) (acc : List Char) (c : Char)
    (l : List Char) (h1 : isWordChar c = false) (h2 : c ≠ '$') :
    scanMiss ph (.word acc) (c :: l) = emitMiss ph acc (scanMiss ph .top l) := by
  rw [scanMiss]
  simp [h1, h2]

theorem scanMiss_word_nil (ph : String → Option String) (acc : List Char) :
    scanMiss ph (.word acc) [] = emitMiss ph acc none := rfl

theorem scanOut_top_dollar (ph : String → Option String) (l : List Char) :
    scanOut ph .top ('$' :: l) = scanOut ph .afterDollar l := by
  rw [scanOut]
  simp

theorem scanOut_top_cons (ph : String → Option String) (c : Char) (l : List Char)
    (h : c ≠ '$') :
    scanOut ph .top (c :: l) = c :: scanOut ph .top l := by
  rw [scanOut]
  simp [h]

theorem scanOut_ad_word (ph : String → Option String) (c : Char) (l : List Char)
    (h : isWordChar c = true) :
    scanOut ph .afterDollar (c :: l) = scanOut ph (.word [c]) l := by
  rw [scanOut]
  simp [h]

theorem scanOut_ad_dollar (ph : String → Option String) (l : List Char) :
    scanOut ph .afterDollar ('$' :: l) = '$' :: scanOut ph .afterDollar l := by
  rw [scanOut]
  simp [isWordChar]

theorem scanOut_ad_other (ph : String → Option String) (c : Char) (l : List Char)
    (h1 : isWordChar c = false) (h2 : c ≠ '$') :
    scanOut ph .afterDollar (c :: l) = '$' :: c :: scanOut ph .top l := by
  rw [scanOut]
  simp [h1, h2]

theorem scanOut_word_word (ph : String → Option String) (acc : List Char) (c : Char)
    (l : List Char) (h : isWordChar c = true) :
    scanOut ph (.word acc) (c :: l) = scanOut ph (.word (acc ++ [c])) l := by
  rw [scanOut]
  simp [h]

theorem scanOut_word_dollar (ph : String → Option String) (acc : List Char)
    (l : List Char) :
    scanOut ph (.word acc) ('$' :: l) = emitOut ph acc (scanOut ph .afterDollar l) := by
  rw [scanOut]
  simp [isWordChar]

theorem scanOut_word_other (ph : String → Option String) (acc : List Char) (c : Char)
    (l : List Char) (h1 : isWordChar c = false) (h2 : c ≠ '$') :
    scanOut ph (.word acc) (c :: l) = emitOut ph acc (c :: scanOut ph .top l) := by
  rw [scanOut]
  simp [h1, h2]

theorem scanOut_word_nil (ph : String → Option String) (acc : List Char) :
    scanOut ph (.word acc) [] = emitOut ph acc [] := rfl

theorem tokenNames_top_dollar (l : List Char) :
    tokenNames .top ('$' :: l) = tokenNames .afterDollar l := by
  rw [tokenNames]
  simp

theorem tokenNames_top_cons (c : Char) (l : List Char) (h : c ≠ '$') :
    tokenNames .top (c :: l) = tokenNames .top l := by
  rw [tokenNames]
  simp [h]

theorem tokenNames_ad_word (c : Char) (l : List Char) (h : isWordChar c = true) :
    tokenNames .afterDollar (c :: l) = tokenNames (.word [c]) l := by
  rw [tokenNames]
  simp [h]

theorem tokenNames_ad_dollar (l : List Char) :
    tokenNames .afterDollar ('$' :: l) = tokenNames .afterDollar l := by
  rw [tokenNames]
  simp [isWordChar]

theorem tokenNames_ad_other (c : Char) (l : List Char)
    (h1 : isWordChar c = false) (h2 : c ≠ '$') :
    tokenNames .afterDollar (c :: l) = tokenNames .top l := by
  rw [tokenNames]
  simp [h1, h2]

theorem tokenNames_word_word (acc : List Char) (c : Char) (l : List Char)
    (h : isWordChar c = true) :
    tokenNames (.word acc) (c :: l) = tokenNames (.word (acc ++ [c])) l := by
  rw [tokenNames]
  simp [h]

theorem tokenNames_word_dollar (acc : List Char) (l : List Char) :
    tokenNames (.word acc) ('$' :: l) = String.mk acc :: tokenNames .afterDollar l := by
  rw [tokenNames]
  simp [isWordChar]

theorem tokenNames_word_other (acc : List Char) (c : Char) (l : List Char)
    (h1 : isWordChar c = false) (h2 : c ≠ '$') :
    tokenNames (.word acc) (c :: l) = String.mk acc :: tokenNames .top l := by
  rw [tokenNames]
  simp [h1, h2]

theorem tokenNames_word_nil (acc : List Char) :
    tokenNames (.word acc) [] = [String.mk acc] := rfl

/-! ### The `missing` slot holds the last unresolved token -/

theorem getLast?_cons_getD (a : α) (l : List α) :
    (a :: l).getLast? = some (l.getLast?.getD a) := by
  induction l generalizing a with
  | nil => rfl
  | cons b l2 ih =>
      rw [List.getLast?_cons_cons, ih b]
      simp

theorem emitMiss_getLast (ph : String → Option String) (acc : List Char)
    (ts : List String) :
    emitMiss ph acc ((ts.filter fun n => (ph n).isNone).getLast?)
      = ((String.mk acc :: ts).filter fun n => (ph n).isNone).getLast? := by
  cases hph : ph (String.mk acc) with
  | some v => simp [emitMiss, hph]
  | none =>
      rw [List.filter_cons_of_pos (by simp [hph])]
      rw [getLast?_cons_getD]
      simp [emitMiss, hph]

theorem scanMiss_eq_tokens (ph : String → Option String) (l : List Char) :
    ∀ m, scanMiss ph m l = ((tokenNames m l).filter fun n => (ph n).isNone).getLast? := by
  induction l with
  | nil =>
      intro m
      match m with
      | .top => rfl
      | .afterDollar => rfl
      | .word acc =>
          rw [scanMiss_word_nil, tokenNames_word_nil, ← List.filter_nil (p := fun n => (ph n).isNone),
            ← emitMiss_getLast]
          rfl
  | cons c rest ih =>
      intro m
      match m with
      | .top =>
          by_cases hc : c = '$'
          · subst hc
            rw [scanMiss_top_dollar, tokenNames_top_dollar, ih]
          · rw [scanMiss_top_cons _ _ _ hc, tokenNames_top_cons _ _ hc, ih]
      | .afterDollar =>
          by_cases hw : isWordChar c = true
          · rw [scanMiss_ad_word _ _ _ hw, tokenNames_ad_word _ _ hw, ih]
          · by_cases hc : c = '$'
            · subst hc
              rw [scanMiss_ad_dollar, tokenNames_ad_dollar, ih]
            · rw [scanMiss_ad_other _ _ _ (by simpa using hw) hc,
                tokenNames_ad_other _ _ (by simpa using hw) hc, ih]
      | .word acc =>
          by_cases hw : isWordChar c = true
          · rw [scanMiss_word_word _ _ _ _ hw, tokenNames_word_word _ _ _ hw, ih]
          · by_cases hc : c = '$'
            · subst hc
              rw [scanMiss_word_dollar, tokenNames_word_dollar, ih, emitMiss_getLast]
            · rw [scanMiss_word_other _ _ _ _ (by simpa using hw) hc,
                tokenNames_word_other _ _ _ (by simpa using hw) hc, ih, emitMiss_getLast]

/-- C3 counterexample: the pattern `$a/$b` has two unresolved tokens; the
error names `b`, the rightmost one, not the first (leftmost) one `a`. -/
theorem C3_counterexample :
    replace_placeholders "$a/$b" (fun _ => none)
        = .error (.PlaceholderMissing "b")
      ∧ "b" ≠ "a" := by
  constructor
  · decide
  · decide

/-- C3 (amended): if a pattern has non-escaped `$name` tokens with no entry
in the placeholder map, expansion fails with `PlaceholderMissing` carrying
the name of the *last* (rightmost) unresolved token: the replacement closure
in `replace_placeholders` overwrites its `missing` slot on every miss, so
the final scan value is the last miss, not the first. -/
theorem C3_last_unresolved_token (p : String) (ph : String → Option String)
    (n : String)
    (h : ((tokensOf p).filter fun t => (ph t).isNone).getLast? = some n) :
    replace_placeholders p ph = .error (.PlaceholderMissing n) := by
  rw [tokensOf] at h
  simp only [replace_placeholders]
  rw [scanMiss_eq_tokens, h]

/-- Witness for `C3_last_unresolved_token` at the pattern `$a/$b` with an
empty placeholder map. -/
theorem C3_witness :
    (((tokensOf "$a/$b").filter fun t => ((fun _ => none : String → Option String) t).isNone).getLast?
        = some "b")
      ∧ replace_placeholders "$a/$b" (fun _ => none)
        = .error (.PlaceholderMissing "b") :=
  ⟨by decide, C3_last_unresolved_token "$a/$b" (fun _ => none) "b" (by decide)⟩

/-! ### Compositional lemmas for the expander -/

theorem toList_mk (l : List Char) : (String.mk l).toList = l := rfl

/-- A list that is empty or starts with a non-word character: the shapes at
which a pending `\w+` token ends. -/
def nonWordHead (l : List Char) : Prop :=
  l = [] ∨ ∃ c r, l = c :: r ∧ isWordChar c = false

theorem scanMiss_top_append (ph : String → Option String) (a l : List Char)
    (h : ∀ c ∈ a, c ≠ '$') :
    scanMiss ph .top (a ++ l) = scanMiss ph .top l := by
  induction a with
  | nil => rfl
  | cons c a2 ih =>
      rw [List.cons_append, scanMiss_top_cons _ _ _ (h c (by simp)),
        ih (fun x hx => h x (by simp [hx]))]

theorem scanOut_top_append (ph : String → Option String) (a l : List Char)
    (h : ∀ c ∈ a, c ≠ '$') :
    scanOut ph .top (a ++ l) = a ++ scanOut ph .top l := by
  induction a with
  | nil => rfl
  | cons c a2 ih =>
      rw [List.cons_append, scanOut_top_cons _ _ _ (h c (by simp)),
        ih (fun x hx => h x (by simp [hx]))]
      rfl

theorem scanMiss_word_append (ph : String → Option String) (w : List Char)
    (hw : ∀ c ∈ w, isWordChar c = true) :
    ∀ acc l, scanMiss ph (.word acc) (w ++ l) = scanMiss ph (.word (acc ++ w)) l := by
  induction w with
  | nil => intro acc l; simp
  | cons c w2 ih =>
      intro acc l
      rw [List.cons_append, scanMiss_word_word _ _ _ _ (hw c (by simp)),
        ih (fun x hx => hw x (by simp [hx]))]
      simp

theorem scanOut_word_append (ph : String → Option String) (w : List Char)
    (hw : ∀ c ∈ w, isWordChar c = true) :
    ∀ acc l, scanOut ph (.word acc) (w ++ l) = scanOut ph (.word (acc ++ w)) l := by
  induction w with
  | nil => intro acc l; simp
  | cons c w2 ih =>
      intro acc l
      rw [List.cons_append, scanOut_word_word _ _ _ _ (hw c (by simp)),
        ih (fun x hx => hw x (by simp [hx]))]
      simp

theorem scanMiss_ad_enter (ph : String → Option String) (w l : List Char)
    (hne : w ≠ []) (hw : ∀ c ∈ w, isWordChar c = true) :
    scanMiss ph .afterDollar (w ++ l) = scanMiss ph (.word w) l := by
  match w with
  | [] => exact absurd rfl hne
  | c :: w2 =>
      rw [List.cons_append, scanMiss_ad_word _ _ _ (hw c (by simp)),
        scanMiss_word_append ph w2 (fun x hx => hw x (by simp [hx]))]
      rfl

theorem scanOut_ad_enter (ph : String → Option String) (w l : List Char)
    (hne : w ≠ []) (hw : ∀ c ∈ w, isWordChar c = true) :
    scanOut ph .afterDollar (w ++ l) = scanOut ph (.word w) l := by
  match w with
  | [] => exact absurd rfl hne
  | c :: w2 =>
      rw [List.cons_append, scanOut_ad_word _ _ _ (hw c (by simp)),
        scanOut_word_append ph w2 (fun x hx => hw x (by simp [hx]))]
      rfl

theorem scanMiss_word_exit (ph : String → Option String) (acc l : List Char)
    (h : nonWordHead l) :
    scanMiss ph (.word acc) l = emitMiss ph acc (scanMiss ph .top l) := by
  rcases h with h | ⟨c, r, rfl, hw⟩
  · subst h; rfl
  · by_cases hc : c = '$'
    · subst hc
      rw [scanMiss_word_dollar, scanMiss_top_dollar]
    · rw [scanMiss_word_other _ _ _ _ hw hc, scanMiss_top_cons _ _ _ hc]

theorem scanOut_word_exit (ph : String → Option String) (acc l : List Char)
    (h : nonWordHead l) :
    scanOut ph (.word acc) l = emitOut ph acc (scanOut ph .top l) := by
  rcases h with h | ⟨c, r, rfl, hw⟩
  · subst h; rfl
  · by_cases hc : c = '$'
    · subst hc
      rw [scanOut_word_dollar, scanOut_top_dollar]
    · rw [scanOut_word_other _ _ _ _ hw hc, scanOut_top_cons _ _ _ hc]

theorem marker_no_dollar : ∀ c ∈ marker, c ≠ '$' := by decide

theorem replaceEsc_nodollar_id (a : List Char) (h : ∀ c ∈ a, c ≠ '$') :
    replaceEsc a = a := by
  have h2 := replaceEsc_append a [] h
  simpa [replaceEsc] using h2

theorem replaceEsc_nonWordHead (rest : List Char) (h : nonWordHead rest) :
    nonWordHead (replaceEsc rest) := by
  rcases h with h | ⟨c, r, rfl, hw⟩
  · subst h; exact Or.inl rfl
  · match r with
    | [] => exact Or.inr ⟨c, [], rfl, hw⟩
    | c2 :: r2 =>
        by_cases hcc : c = '$' ∧ c2 = '$'
        · refine Or.inr ⟨'￿', marker.tail ++ replaceEsc r2, ?_, by decide⟩
          rw [show replaceEsc (c :: c2 :: r2) = marker ++ replaceEsc r2 by
            rw [hcc.1, hcc.2, replaceEsc_esc]]
          rfl
        · refine Or.inr ⟨c, replaceEsc (c2 :: r2), ?_, hw⟩
          show replaceEsc (c :: c2 :: r2) = _
          rw [replaceEsc]
          rw [if_neg hcc]

/-! ### Splitting a pattern at a clean escape boundary -/

/-- A list that is empty or starts with a character that neither extends a
`\w+` token nor is a `$`: the shapes that may follow a stray `$`. -/
def strayHead (l : List Char) : Prop :=
  l = [] ∨ ∃ c r, l = c :: r ∧ isWordChar c = false ∧ c ≠ '$'

/-- `escClean u` holds when the left-to-right `$$` pairing of
`str::replace` consumes `u` exactly: `u` does not end with an unpaired `$`
that would pair with the next character.  This is the precise sense in
which the character following `u` is "not part of a `$$` escape". -/
def escClean : List Char → Bool
  | [] => true
  | [c] => if c = '$' then false else true
  | c :: c2 :: r => if c = '$' ∧ c2 = '$' then escClean r else escClean (c2 :: r)

/-- `noEsc u` holds when `u` contains no `$$` pair at all (every `$` in
`u` is stray); the segment before the first `$$` escape of any pattern
satisfies it. -/
def noEsc : List Char → Bool
  | [] => true
  | [_] => true
  | c :: c2 :: r => if c = '$' ∧ c2 = '$' then false else noEsc (c2 :: r)

theorem strayHead_nonWordHead (l : List Char) (h : strayHead l) : nonWordHead l := by
  rcases h with h | ⟨c, r, rfl, hw, _⟩
  · exact Or.inl h
  · exact Or.inr ⟨c, r, rfl, hw⟩

theorem replaceEsc_cons2 (c c2 : Char) (r : List Char) (h : ¬(c = '$' ∧ c2 = '$')) :
    replaceEsc (c :: c2 :: r) = c :: replaceEsc (c2 :: r) := by
  rw [replaceEsc, if_neg h]

theorem escClean_esc (r : List Char) : escClean ('$' :: '$' :: r) = escClean r := rfl

theorem escClean_cons2 (c c2 : Char) (r : List Char) (h : ¬(c = '$' ∧ c2 = '$')) :
    escClean (c :: c2 :: r) = escClean (c2 :: r) := by
  rw [show escClean (c :: c2 :: r)
      = if c = '$' ∧ c2 = '$' then escClean r else escClean (c2 :: r) from rfl,
    if_neg h]

theorem noEsc_esc (r : List Char) : noEsc ('$' :: '$' :: r) = false := rfl

theorem noEsc_cons2 (c c2 : Char) (r : List Char) (h : ¬(c = '$' ∧ c2 = '$')) :
    noEsc (c :: c2 :: r) = noEsc (c2 :: r) := by
  rw [show noEsc (c :: c2 :: r)
      = if c = '$' ∧ c2 = '$' then false else noEsc (c2 :: r) from rfl,
    if_neg h]

/-- The `$$`-escape replacement splits at every clean boundary. -/
theorem replaceEsc_split (l : List Char) :
    ∀ u : List Char, escClean u = true →
      replaceEsc (u ++ l) = replaceEsc u ++ replaceEsc l := by
  intro u
  induction u using replaceEsc.induct with
  | case1 => intro _; rfl
  | case2 c =>
      intro h
      have hc : c ≠ '$' := by
        intro he
        subst he
        exact absurd h (by decide)
      rw [List.singleton_append, replaceEsc_cons c l hc]
      rfl
  | case3 c c2 rest hp ih =>
      intro h
      obtain ⟨rfl, rfl⟩ := hp
      rw [escClean_esc] at h
      rw [List.cons_append, List.cons_append, replaceEsc_esc, replaceEsc_esc,
        ih h, List.append_assoc]
  | case4 c c2 rest hnp ih =>
      intro h
      rw [escClean_cons2 c c2 rest hnp] at h
      rw [List.cons_append, List.cons_append, replaceEsc_cons2 c c2 _ hnp,
        show c2 :: (rest ++ l) = (c2 :: rest) ++ l from rfl, ih h,
        replaceEsc_cons2 c c2 rest hnp]
      rfl

/-- A pattern segment with no `$$` pair is left alone by the escape
replacement. -/
theorem replaceEsc_noEsc_id : ∀ u : List Char, noEsc u = true → replaceEsc u = u := by
  intro u
  induction u using replaceEsc.induct with
  | case1 => intro _; rfl
  | case2 c => intro _; rfl
  | case3 c c2 rest hp ih =>
      intro h
      obtain ⟨rfl, rfl⟩ := hp
      rw [noEsc_esc] at h
      exact Bool.noConfusion h
  | case4 c c2 rest hnp ih =>
      intro h
      rw [noEsc_cons2 c c2 rest hnp] at h
      rw [replaceEsc_cons2 c c2 rest hnp, ih h]

theorem replaceEsc_dollar_stray (rest : List Char) (h : strayHead rest) :
    replaceEsc ('$' :: rest) = '$' :: replaceEsc rest := by
  rcases h with rfl | ⟨c, r, rfl, hw, hc⟩
  · rfl
  · exact replaceEsc_dollar_cons c r hc

theorem replaceEsc_strayHead (rest : List Char) (h : strayHead rest) :
    strayHead (replaceEsc rest) := by
  rcases h with rfl | ⟨c, r, rfl, hw, hc⟩
  · exact Or.inl rfl
  · match r with
    | [] => exact Or.inr ⟨c, [], rfl, hw, hc⟩
    | c2 :: r2 =>
        have hnp : ¬(c = '$' ∧ c2 = '$') := fun hp => hc hp.1
        exact Or.inr ⟨c, replaceEsc (c2 :: r2), replaceEsc_cons2 c c2 r2 hnp, hw, hc⟩

theorem emitOut_append (ph : String → Option String) (acc x y : List Char) :
    emitOut ph acc (x ++ y) = emitOut ph acc x ++ y := by
  cases h : ph (String.mk acc) with
  | some v => simp [emitOut, h]
  | none => simp [emitOut, h]

theorem emitOut_some (ph : String → Option String) (acc : List Char) (v : String)
    (h : ph (String.mk acc) = some v) (x : List Char) :
    emitOut ph acc x = v.toList ++ x := by
  simp [emitOut, h]

theorem tokenNames_top_append (a l : List Char) (h : ∀ c ∈ a, c ≠ '$') :
    tokenNames .top (a ++ l) = tokenNames .top l := by
  induction a with
  | nil => rfl
  | cons c a2 ih =>
      rw [List.cons_append, tokenNames_top_cons _ _ (h c (by simp)),
        ih (fun x hx => h x (by simp [hx]))]

theorem tokenNames_word_append (w : List Char)
    (hw : ∀ c ∈ w, isWordChar c = true) :
    ∀ acc l, tokenNames (.word acc) (w ++ l) = tokenNames (.word (acc ++ w)) l := by
  induction w with
  | nil => intro acc l; simp
  | cons c w2 ih =>
      intro acc l
      rw [List.cons_append, tokenNames_word_word _ _ _ (hw c (by simp)),
        ih (fun x hx => hw x (by simp [hx]))]
      simp

theorem tokenNames_ad_enter (w l : List Char) (hne : w ≠ [])
    (hw : ∀ c ∈ w, isWordChar c = true) :
    tokenNames .afterDollar (w ++ l) = tokenNames (.word w) l := by
  match w with
  | [] => exact absurd rfl hne
  | c :: w2 =>
      rw [List.cons_append, tokenNames_ad_word _ _ (hw c (by simp)),
        tokenNames_word_append w2 (fun x hx => hw x (by simp [hx]))]
      rfl

theorem tokenNames_word_exit (acc l : List Char) (h : nonWordHead l) :
    tokenNames (.word acc) l = String.mk acc :: tokenNames .top l := by
  rcases h with h | ⟨c, r, rfl, hw⟩
  · subst h; rfl
  · by_cases hc : c = '$'
    · subst hc
      rw [tokenNames_word_dollar, tokenNames_top_dollar]
    · rw [tokenNames_word_other _ _ _ hw hc, tokenNames_top_cons _ _ hc]

/-- The token scan splits at any boundary whose right side starts with a
non-word, non-`$` character (or is empty). -/
theorem tokenNames_nonword_split (X : List Char) (hX : strayHead X) :
    ∀ (E1 : List Char) (m : ScanMode),
      tokenNames m (E1 ++ X) = tokenNames m E1 ++ tokenNames .top X := by
  intro E1
  induction E1 with
  | nil =>
      intro m
      rcases hX with rfl | ⟨c, r, rfl, hw, hc⟩
      · match m with
        | .top => rfl
        | .afterDollar => rfl
        | .word acc => rfl
      · match m with
        | .top =>
            show tokenNames ScanMode.top (c :: r)
              = tokenNames ScanMode.top [] ++ tokenNames ScanMode.top (c :: r)
            rw [show tokenNames ScanMode.top [] = ([] : List String) from rfl,
              List.nil_append]
        | .afterDollar =>
            rw [List.nil_append, tokenNames_ad_other _ _ hw hc,
              tokenNames_top_cons _ _ hc]
            rfl
        | .word acc =>
            rw [List.nil_append, tokenNames_word_other _ _ _ hw hc,
              tokenNames_top_cons _ _ hc]
            rfl
  | cons c E1' ih =>
      intro m
      match m with
      | .top =>
          by_cases hc : c = '$'
          · subst hc
            rw [List.cons_append, tokenNames_top_dollar, tokenNames_top_dollar,
              ih .afterDollar]
          · rw [List.cons_append, tokenNames_top_cons _ _ hc,
              tokenNames_top_cons _ _ hc, ih .top]
      | .afterDollar =>
          by_cases hw2 : isWordChar c = true
          · rw [List.cons_append, tokenNames_ad_word _ _ hw2,
              tokenNames_ad_word _ _ hw2, ih (.word [c])]
          · by_cases hc : c = '$'
            · subst hc
              rw [List.cons_append, tokenNames_ad_dollar, tokenNames_ad_dollar,
                ih .afterDollar]
            · rw [List.cons_append, tokenNames_ad_other _ _ (by simpa using hw2) hc,
                tokenNames_ad_other _ _ (by simpa using hw2) hc, ih .top]
      | .word acc =>
          by_cases hw2 : isWordChar c = true
          · rw [List.cons_append, tokenNames_word_word _ _ _ hw2,
              tokenNames_word_word _ _ _ hw2, ih (.word (acc ++ [c]))]
          · by_cases hc : c = '$'
            · subst hc
              rw [List.cons_append, tokenNames_word_dollar, tokenNames_word_dollar,
                ih .afterDollar]
              rfl
            · rw [List.cons_append, tokenNames_word_other _ _ _ (by simpa using hw2) hc,
                tokenNames_word_other _ _ _ (by simpa using hw2) hc, ih .top]
              rfl

/-- The output scan splits at the same boundaries. -/
theorem scanOut_nonword_split (ph : String → Option String) (X : List Char)
    (hX : strayHead X) :
    ∀ (E1 : List Char) (m : ScanMode),
      scanOut ph m (E1 ++ X) = scanOut ph m E1 ++ scanOut ph .top X := by
  intro E1
  induction E1 with
  | nil =>
      intro m
      rcases hX with rfl | ⟨c, r, rfl, hw, hc⟩
      · match m with
        | .top => rfl
        | .afterDollar => rfl
        | .word acc =>
            rw [List.nil_append,
              show scanOut ph ScanMode.top ([] : List Char) = [] from rfl,
              List.append_nil]
      · match m with
        | .top =>
            show scanOut ph ScanMode.top (c :: r)
              = scanOut ph ScanMode.top [] ++ scanOut ph ScanMode.top (c :: r)
            rw [show scanOut ph ScanMode.top [] = ([] : List Char) from rfl,
              List.nil_append]
        | .afterDollar =>
            rw [List.nil_append, scanOut_ad_other _ _ _ hw hc,
              scanOut_top_cons _ _ _ hc]
            rfl
        | .word acc =>
            rw [List.nil_append, scanOut_word_other _ _ _ _ hw hc,
              scanOut_top_cons _ _ _ hc,
              show scanOut ph (.word acc) [] = emitOut ph acc [] from rfl,
              ← emitOut_append]
            rfl
  | cons c E1' ih =>
      intro m
      match m with
      | .top =>
          by_cases hc : c = '$'
          · subst hc
            rw [List.cons_append, scanOut_top_dollar, scanOut_top_dollar,
              ih .afterDollar]
          · rw [List.cons_append, scanOut_top_cons _ _ _ hc,
              scanOut_top_cons _ _ _ hc, ih .top]
            rfl
      | .afterDollar =>
          by_cases hw2 : isWordChar c = true
          · rw [List.cons_append, scanOut_ad_word _ _ _ hw2,
              scanOut_ad_word _ _ _ hw2, ih (.word [c])]
          · by_cases hc : c = '$'
            · subst hc
              rw [List.cons_append, scanOut_ad_dollar, scanOut_ad_dollar,
                ih .afterDollar]
              rfl
            · rw [List.cons_append, scanOut_ad_other _ _ _ (by simpa using hw2) hc,
                scanOut_ad_other _ _ _ (by simpa using hw2) hc, ih .top]
              rfl
      | .word acc =>
          by_cases hw2 : isWordChar c = true
          · rw [List.cons_append, scanOut_word_word _ _ _ _ hw2,
              scanOut_word_word _ _ _ _ hw2, ih (.word (acc ++ [c]))]
          · by_cases hc : c = '$'
            · subst hc
              rw [List.cons_append, scanOut_word_dollar, scanOut_word_dollar,
                ih .afterDollar, emitOut_append]
            · rw [List.cons_append, scanOut_word_other _ _ _ _ (by simpa using hw2) hc,
                scanOut_word_other _ _ _ _ (by simpa using hw2) hc, ih .top,
                show c :: (scanOut ph .top E1' ++ scanOut ph .top X)
                  = (c :: scanOut ph .top E1') ++ scanOut ph .top X from rfl,
                emitOut_append]

/-- A trailing `$` contributes no token. -/
theorem tokenNames_append_dollar :
    ∀ (E1 : List Char) (m : ScanMode),
      tokenNames m (E1 ++ ['$']) = tokenNames m E1 := by
  intro E1
  induction E1 with
  | nil =>
      intro m
      match m with
      | .top => rfl
      | .afterDollar => rfl
      | .word acc => rfl
  | cons c E1' ih =>
      intro m
      match m with
      | .top =>
          by_cases hc : c = '$'
          · subst hc
            rw [List.cons_append, tokenNames_top_dollar, tokenNames_top_dollar,
              ih .afterDollar]
          · rw [List.cons_append, tokenNames_top_cons _ _ hc,
              tokenNames_top_cons _ _ hc, ih .top]
      | .afterDollar =>
          by_cases hw2 : isWordChar c = true
          · rw [List.cons_append, tokenNames_ad_word _ _ hw2,
              tokenNames_ad_word _ _ hw2, ih (.word [c])]
          · by_cases hc : c = '$'
            · subst hc
              rw [List.cons_append, tokenNames_ad_dollar, tokenNames_ad_dollar,
                ih .afterDollar]
            · rw [List.cons_append, tokenNames_ad_other _ _ (by simpa using hw2) hc,
                tokenNames_ad_other _ _ (by simpa using hw2) hc, ih .top]
      | .word acc =>
          by_cases hw2 : isWordChar c = true
          · rw [List.cons_append, tokenNames_word_word _ _ _ hw2,
              tokenNames_word_word _ _ _ hw2, ih (.word (acc ++ [c]))]
          · by_cases hc : c = '$'
            · subst hc
              rw [List.cons_append, tokenNames_word_dollar, tokenNames_word_dollar,
                ih .afterDollar]
            · rw [List.cons_append, tokenNames_word_other _ _ _ (by simpa using hw2) hc,
                tokenNames_word_other _ _ _ (by simpa using hw2) hc, ih .top]

/-- A trailing `$` is emitted verbatim at the end of the output. -/
theorem scanOut_append_dollar (ph : String → Option String) :
    ∀ (E1 : List Char) (m : ScanMode),
      scanOut ph m (E1 ++ ['$']) = scanOut ph m E1 ++ ['$'] := by
  intro E1
  induction E1 with
  | nil =>
      intro m
      match m with
      | .top => rfl
      | .afterDollar => rfl
      | .word acc =>
          rw [List.nil_append,
            show scanOut ph (.word acc) ['$']
              = emitOut ph acc (scanOut ph .afterDollar []) from rfl,
            show scanOut ph (.word acc) [] = emitOut ph acc [] from rfl,
            ← emitOut_append]
          rfl
  | cons c E1' ih =>
      intro m
      match m with
      | .top =>
          by_cases hc : c = '$'
          · subst hc
            rw [List.cons_append, scanOut_top_dollar, scanOut_top_dollar,
              ih .afterDollar]
          · rw [List.cons_append, scanOut_top_cons _ _ _ hc,
              scanOut_top_cons _ _ _ hc, ih .top]
            rfl
      | .afterDollar =>
          by_cases hw2 : isWordChar c = true
          · rw [List.cons_append, scanOut_ad_word _ _ _ hw2,
              scanOut_ad_word _ _ _ hw2, ih (.word [c])]
          · by_cases hc : c = '$'
            · subst hc
              rw [List.cons_append, scanOut_ad_dollar, scanOut_ad_dollar,
                ih .afterDollar]
              rfl
            · rw [List.cons_append, scanOut_ad_other _ _ _ (by simpa using hw2) hc,
                scanOut_ad_other _ _ _ (by simpa using hw2) hc, ih .top]
              rfl
      | .word acc =>
          by_cases hw2 : isWordChar c = true
          · rw [List.cons_append, scanOut_word_word _ _ _ _ hw2,
              scanOut_word_word _ _ _ _ hw2, ih (.word (acc ++ [c]))]
          · by_cases hc : c = '$'
            · subst hc
              rw [List.cons_append, scanOut_word_dollar, scanOut_word_dollar,
                ih .afterDollar, emitOut_append]
            · rw [List.cons_append, scanOut_word_other _ _ _ _ (by simpa using hw2) hc,
                scanOut_word_other _ _ _ _ (by simpa using hw2) hc, ih .top,
                show c :: (scanOut ph .top E1' ++ ['$'])
                  = (c :: scanOut ph .top E1') ++ ['$'] from rfl,
                emitOut_append]

/-- The token scan splits at a stray `$`, which contributes no token. -/
theorem tokenNames_stray_dollar (E2 : List Char) (h : strayHead E2)
    (E1 : List Char) (m : ScanMode) :
    tokenNames m (E1 ++ '$' :: E2) = tokenNames m E1 ++ tokenNames .top E2 := by
  rw [show E1 ++ '$' :: E2 = (E1 ++ ['$']) ++ E2 by simp,
    tokenNames_nonword_split E2 h (E1 ++ ['$']) m, tokenNames_append_dollar E1 m]

/-- The output scan splits at a stray `$`, which is emitted verbatim. -/
theorem scanOut_stray_dollar (ph : String → Option String) (E2 : List Char)
    (h : strayHead E2) (E1 : List Char) (m : ScanMode) :
    scanOut ph m (E1 ++ '$' :: E2)
      = scanOut ph m E1 ++ '$' :: scanOut ph .top E2 := by
  rw [show E1 ++ '$' :: E2 = (E1 ++ ['$']) ++ E2 by simp,
    scanOut_nonword_split ph E2 h (E1 ++ ['$']) m, scanOut_append_dollar ph E1 m,
    List.append_assoc]
  rfl

/-- The token scan splits at a resolved `$w` token: it contributes exactly
the token `w`. -/
theorem tokenNames_token_split (w E2 : List Char) (hne : w ≠ [])
    (hw : ∀ c ∈ w, isWordChar c = true) (hE2 : strayHead E2) :
    ∀ (E1 : List Char) (m : ScanMode),
      tokenNames m (E1 ++ '$' :: (w ++ E2))
        = tokenNames m E1 ++ (String.mk w :: tokenNames .top E2) := by
  have hbase : tokenNames .afterDollar (w ++ E2)
      = String.mk w :: tokenNames .top E2 := by
    rw [tokenNames_ad_enter w E2 hne hw,
      tokenNames_word_exit w E2 (strayHead_nonWordHead E2 hE2)]
  intro E1
  induction E1 with
  | nil =>
      intro m
      match m with
      | .top => rw [List.nil_append, tokenNames_top_dollar, hbase]; rfl
      | .afterDollar => rw [List.nil_append, tokenNames_ad_dollar, hbase]; rfl
      | .word acc => rw [List.nil_append, tokenNames_word_dollar, hbase]; rfl
  | cons c E1' ih =>
      intro m
      match m with
      | .top =>
          by_cases hc : c = '$'
          · subst hc
            rw [List.cons_append, tokenNames_top_dollar, tokenNames_top_dollar,
              ih .afterDollar]
          · rw [List.cons_append, tokenNames_top_cons _ _ hc,
              tokenNames_top_cons _ _ hc, ih .top]
      | .afterDollar =>
          by_cases hw2 : isWordChar c = true
          · rw [List.cons_append, tokenNames_ad_word _ _ hw2,
              tokenNames_ad_word _ _ hw2, ih (.word [c])]
          · by_cases hc : c = '$'
            · subst hc
              rw [List.cons_append, tokenNames_ad_dollar, tokenNames_ad_dollar,
                ih .afterDollar]
            · rw [List.cons_append, tokenNames_ad_other _ _ (by simpa using hw2) hc,
                tokenNames_ad_other _ _ (by simpa using hw2) hc, ih .top]
      | .word acc =>
          by_cases hw2 : isWordChar c = true
          · rw [List.cons_append, tokenNames_word_word _ _ _ hw2,
              tokenNames_word_word _ _ _ hw2, ih (.word (acc ++ [c]))]
          · by_cases hc : c = '$'
            · subst hc
              rw [List.cons_append, tokenNames_word_dollar, tokenNames_word_dollar,
                ih .afterDollar]
              rfl
            · rw [List.cons_append, tokenNames_word_other _ _ _ (by simpa using hw2) hc,
                tokenNames_word_other _ _ _ (by simpa using hw2) hc, ih .top]
              rfl

/-- The output scan splits at a resolved `$w` token: its value is spliced
into the output verbatim. -/
theorem scanOut_token_split (ph : String → Option String) (w : List Char)
    (v : String) (E2 : List Char) (hne : w ≠ [])
    (hw : ∀ c ∈ w, isWordChar c = true) (hph : ph (String.mk w) = some v)
    (hE2 : strayHead E2) :
    ∀ (E1 : List Char) (m : ScanMode),
      scanOut ph m (E1 ++ '$' :: (w ++ E2))
        = scanOut ph m E1 ++ (v.toList ++ scanOut ph .top E2) := by
  have hbase : scanOut ph .afterDollar (w ++ E2)
      = v.toList ++ scanOut ph .top E2 := by
    rw [scanOut_ad_enter ph w E2 hne hw,
      scanOut_word_exit ph w E2 (strayHead_nonWordHead E2 hE2),
      emitOut_some ph w v hph]
  intro E1
  induction E1 with
  | nil =>
      intro m
      match m with
      | .top => rw [List.nil_append, scanOut_top_dollar, hbase]; rfl
      | .afterDollar =>
          rw [List.nil_append, scanOut_ad_dollar, hbase]
          rfl
      | .word acc =>
          rw [List.nil_append, scanOut_word_dollar, hbase,
            show scanOut ph (.word acc) [] = emitOut ph acc [] from rfl,
            ← emitOut_append]
          rfl
  | cons c E1' ih =>
      intro m
      match m with
      | .top =>
          by_cases hc : c = '$'
          · subst hc
            rw [List.cons_append, scanOut_top_dollar, scanOut_top_dollar,
              ih .afterDollar]
          · rw [List.cons_append, scanOut_top_cons _ _ _ hc,
              scanOut_top_cons _ _ _ hc, ih .top]
            rfl
      | .afterDollar =>
          by_cases hw2 : isWordChar c = true
          · rw [List.cons_append, scanOut_ad_word _ _ _ hw2,
              scanOut_ad_word _ _ _ hw2, ih (.word [c])]
          · by_cases hc : c = '$'
            · subst hc
              rw [List.cons_append, scanOut_ad_dollar, scanOut_ad_dollar,
                ih .afterDollar]
              rfl
            · rw [List.cons_append, scanOut_ad_other _ _ _ (by simpa using hw2) hc,
                scanOut_ad_other _ _ _ (by simpa using hw2) hc, ih .top]
              rfl
      | .word acc =>
          by_cases hw2 : isWordChar c = true
          · rw [List.cons_append, scanOut_word_word _ _ _ _ hw2,
              scanOut_word_word _ _ _ _ hw2, ih (.word (acc ++ [c]))]
          · by_cases hc : c = '$'
            · subst hc
              rw [List.cons_append, scanOut_word_dollar, scanOut_word_dollar,
                ih .afterDollar, emitOut_append]
            · rw [List.cons_append, scanOut_word_other _ _ _ _ (by simpa using hw2) hc,
                scanOut_word_other _ _ _ _ (by simpa using hw2) hc, ih .top,
                show c :: (scanOut ph .top E1' ++ (v.toList ++ scanOut ph .top E2))
                  = (c :: scanOut ph .top E1') ++ (v.toList ++ scanOut ph .top E2)
                  from rfl,
                emitOut_append]

theorem getLast?_append_some (a b : List α) (x : α) (hb : b.getLast? = some x) :
    (a ++ b).getLast? = some x := by
  induction a with
  | nil => exact hb
  | cons c a2 ih =>
      rw [List.cons_append, getLast?_cons_getD, ih]
      rfl

theorem getLast?_append_cases (a b : List α) :
    (a ++ b).getLast? = match b.getLast? with
      | some x => some x
      | none => a.getLast? := by
  cases hb : b.getLast? with
  | some x => rw [getLast?_append_some a b x hb]
  | none =>
      cases b with
      | nil => simp
      | cons c r =>
          rw [getLast?_cons_getD] at hb
          exact Option.noConfusion hb

/-- When the whole token list splits into the token lists of two sides,
the `missing` slot is the right side's missing name if any, else the left
side's (the slot keeps the *last* miss). -/
theorem scanMiss_of_tokens_append (ph : String → Option String) (L A B : List Char)
    (h : tokenNames .top L = tokenNames .top A ++ tokenNames .top B) :
    scanMiss ph .top L = match scanMiss ph .top B with
      | some n => some n
      | none => scanMiss ph .top A := by
  rw [scanMiss_eq_tokens ph L .top, h, List.filter_append, getLast?_append_cases,
    ← scanMiss_eq_tokens ph B .top, ← scanMiss_eq_tokens ph A .top]
  cases scanMiss ph .top B <;> rfl

/-- Same, with a resolved token in the middle (it is filtered out of the
missing candidates). -/
theorem scanMiss_of_tokens_middle (ph : String → Option String) (L A B : List Char)
    (t : String) (hres : (ph t).isNone = false)
    (h : tokenNames .top L = tokenNames .top A ++ (t :: tokenNames .top B)) :
    scanMiss ph .top L = match scanMiss ph .top B with
      | some n => some n
      | none => scanMiss ph .top A := by
  rw [scanMiss_eq_tokens ph L .top, h, List.filter_append,
    List.filter_cons_of_neg (by simp [hres]),
    getLast?_append_cases, ← scanMiss_eq_tokens ph B .top,
    ← scanMiss_eq_tokens ph A .top]
  cases scanMiss ph .top B <;> rfl

theorem dollar_ne_markerGetD (n : Nat) : ¬('$' = marker.getD n ' ') := by
  by_cases h9 : n < 9
  · interval_cases n <;> decide
  · rw [List.getD_eq_default]
    · decide
    · simpa [marker] using Nat.le_of_not_lt h9

/-- The marker-restore automaton splits at a `$` (which occurs nowhere in
the marker): a pending partial match is flushed on both sides alike. -/
theorem rmAux_stray (B : List Char) :
    ∀ (A : List Char) (n : Nat),
      rmAux n (A ++ '$' :: B) = rmAux n A ++ '$' :: rmAux 0 B := by
  intro A
  induction A with
  | nil =>
      intro n
      show rmAux n ('$' :: B) = marker.take n ++ '$' :: rmAux 0 B
      rw [rmAux, if_neg (dollar_ne_markerGetD n), if_neg (by decide : ¬('$' = '￿'))]
  | cons c A2 ih =>
      intro n
      show rmAux n (c :: (A2 ++ '$' :: B)) = rmAux n (c :: A2) ++ '$' :: rmAux 0 B
      by_cases hc : c = marker.getD n ' '
      · by_cases h8 : n = 8
        · subst h8
          rw [rmAux, if_pos hc, if_pos rfl, ih 0,
            show rmAux 8 (c :: A2) = '$' :: rmAux 0 A2 from by
              rw [rmAux, if_pos hc, if_pos rfl]]
          rfl
        · rw [rmAux, if_pos hc, if_neg h8, ih (n + 1),
            show rmAux n (c :: A2) = rmAux (n + 1) A2 from by
              rw [rmAux, if_pos hc, if_neg h8]]
      · rw [rmAux, if_neg hc]
        by_cases hf : c = '￿'
        · rw [if_pos hf, ih 1,
            show rmAux n (c :: A2) = marker.take n ++ rmAux 1 A2 from by
              rw [rmAux, if_neg hc, if_pos hf],
            List.append_assoc]
        · rw [if_neg hf, ih 0,
            show rmAux n (c :: A2) = marker.take n ++ c :: rmAux 0 A2 from by
              rw [rmAux, if_neg hc, if_neg hf],
            List.append_assoc]
          rfl

/-- `output.replace(MARKER, "$")` splits at a `$`. -/
theorem replaceMarker_stray (A B : List Char) :
    replaceMarker (A ++ '$' :: B) = replaceMarker A ++ '$' :: replaceMarker B :=
  rmAux_stray B A 0

/-- A U+FFFF-free list contains no marker and is left alone by the restore
step. -/
theorem replaceMarker_nofff_id (l : List Char) (h : ∀ c ∈ l, c ≠ '￿') :
    replaceMarker l = l := by
  have h2 := replaceMarker_append l [] h
  simpa [replaceMarker, rmAux] using h2

/-- Scanning a U+FFFF-free input with U+FFFF-free placeholder values
produces a U+FFFF-free output. -/
theorem scanOut_no_fff (ph : String → Option String)
    (hV : ∀ n v, ph n = some v → ∀ c ∈ v.toList, c ≠ '￿') :
    ∀ (l : List Char) (m : ScanMode), (∀ c ∈ l, c ≠ '￿') →
      ∀ x ∈ scanOut ph m l, x ≠ '￿' := by
  intro l
  induction l with
  | nil =>
      intro m hl x hx
      match m with
      | .top => exact absurd hx (List.not_mem_nil x)
      | .afterDollar =>
          rw [show scanOut ph .afterDollar [] = ['$'] from rfl] at hx
          obtain rfl := List.mem_singleton.mp hx
          decide
      | .word acc =>
          rw [show scanOut ph (.word acc) [] = emitOut ph acc [] from rfl] at hx
          cases hp : ph (String.mk acc) with
          | some v =>
              rw [emitOut_some ph acc v hp, List.append_nil] at hx
              exact hV _ _ hp x hx
          | none =>
              rw [show emitOut ph acc [] = [] from by simp [emitOut, hp]] at hx
              exact absurd hx (List.not_mem_nil x)
  | cons c l2 ih =>
      intro m hl x hx
      have hc : c ≠ '￿' := hl c (List.mem_cons_self c l2)
      have hl2 : ∀ c2 ∈ l2, c2 ≠ '￿' := fun c2 h2 => hl c2 (List.mem_cons_of_mem c h2)
      match m with
      | .top =>
          by_cases hd : c = '$'
          · subst hd
            rw [scanOut_top_dollar] at hx
            exact ih .afterDollar hl2 x hx
          · rw [scanOut_top_cons _ _ _ hd] at hx
            rcases List.mem_cons.mp hx with rfl | hx2
            · exact hc
            · exact ih .top hl2 x hx2
      | .afterDollar =>
          by_cases hw2 : isWordChar c = true
          · rw [scanOut_ad_word _ _ _ hw2] at hx
            exact ih (.word [c]) hl2 x hx
          · by_cases hd : c = '$'
            · subst hd
              rw [scanOut_ad_dollar] at hx
              rcases List.mem_cons.mp hx with rfl | hx2
              · decide
              · exact ih .afterDollar hl2 x hx2
            · rw [scanOut_ad_other _ _ _ (by simpa using hw2) hd] at hx
              rcases List.mem_cons.mp hx with rfl | hx2
              · decide
              · rcases List.mem_cons.mp hx2 with rfl | hx3
                · exact hc
                · exact ih .top hl2 x hx3
      | .word acc =>
          by_cases hw2 : isWordChar c = true
          · rw [scanOut_word_word _ _ _ _ hw2] at hx
            exact ih (.word (acc ++ [c])) hl2 x hx
          · by_cases hd : c = '$'
            · subst hd
              rw [scanOut_word_dollar] at hx
              cases hp : ph (String.mk acc) with
              | some v =>
                  rw [emitOut_some ph acc v hp] at hx
                  rcases List.mem_append.mp hx with hx2 | hx2
                  · exact hV _ _ hp x hx2
                  · exact ih .afterDollar hl2 x hx2
              | none =>
                  rw [show emitOut ph acc (scanOut ph .afterDollar l2)
                        = scanOut ph .afterDollar l2 from by simp [emitOut, hp]] at hx
                  exact ih .afterDollar hl2 x hx
            · rw [scanOut_word_other _ _ _ _ (by simpa using hw2) hd] at hx
              cases hp : ph (String.mk acc) with
              | some v =>
                  rw [emitOut_some ph acc v hp] at hx
                  rcases List.mem_append.mp hx with hx2 | hx2
                  · exact hV _ _ hp x hx2
                  · rcases List.mem_cons.mp hx2 with rfl | hx3
                    · exact hc
                    · exact ih .top hl2 x hx3
              | none =>
                  rw [show emitOut ph acc (c :: scanOut ph .top l2)
                        = c :: scanOut ph .top l2 from by simp [emitOut, hp]] at hx
                  rcases List.mem_cons.mp hx with rfl | hx3
                  · exact hc
                  · exact ih .top hl2 x hx3

/-! ### C10: a stray `$` is left verbatim, at any position -/

/-- C10: for every pattern `u ++ '$' :: rest` in which the `$` is not part
of a `$$` escape (`escClean u`: the prefix leaves no unpaired `$` for it
to pair with; `strayHead rest` also excludes pairing to the right) and is
not followed by a word character (`strayHead rest`) — e.g. a trailing `$`
(`rest = []`) or `$/` — the stray `$` is left verbatim: the pattern's
token list is exactly the two sides' token lists (the `$` is consumed as
no token), and expansion behaves as the two sides' independent expansions
with a literal `$` spliced between their outputs — so the stray `$` is not
an error by itself, and the whole expansion succeeds exactly when both
sides' actual tokens resolve. -/
theorem C10_stray_dollar_verbatim (u rest : List Char) (ph : String → Option String)
    (hu : escClean u = true) (hrest : strayHead rest) :
    tokensOf (String.mk (u ++ '$' :: rest))
        = tokensOf (String.mk u) ++ tokensOf (String.mk rest)
      ∧ replace_placeholders (String.mk (u ++ '$' :: rest)) ph
        = match replace_placeholders (String.mk rest) ph,
                replace_placeholders (String.mk u) ph with
          | .error e, _ => .error e
          | .ok _, .error e => .error e
          | .ok s2, .ok s1 => .ok (String.mk (s1.toList ++ '$' :: s2.toList)) := by
  have hE2 : strayHead (replaceEsc rest) := replaceEsc_strayHead rest hrest
  have hesc : replaceEsc (u ++ '$' :: rest)
      = replaceEsc u ++ '$' :: replaceEsc rest := by
    rw [replaceEsc_split ('$' :: rest) u hu, replaceEsc_dollar_stray rest hrest]
  have htok : tokenNames .top (replaceEsc u ++ '$' :: replaceEsc rest)
      = tokenNames .top (replaceEsc u) ++ tokenNames .top (replaceEsc rest) :=
    tokenNames_stray_dollar (replaceEsc rest) hE2 (replaceEsc u) .top
  constructor
  · simp only [tokensOf, toList_mk]
    rw [hesc, htok]
  · have hmiss := scanMiss_of_tokens_append ph
      (replaceEsc u ++ '$' :: replaceEsc rest) (replaceEsc u) (replaceEsc rest) htok
    simp only [replace_placeholders, toList_mk]
    rw [hesc, hmiss]
    cases h2 : scanMiss ph .top (replaceEsc rest) with
    | some n => rfl
    | none =>
        cases h1 : scanMiss ph .top (replaceEsc u) with
        | some n => rfl
        | none =>
            rw [scanOut_stray_dollar ph (replaceEsc rest) hE2 (replaceEsc u) .top,
              replaceMarker_stray]
            rfl

/-- Witness for `C10_stray_dollar_verbatim` at the pattern `abc$` (a
trailing stray `$`) with an empty placeholder map. -/
theorem C10_witness :
    tokensOf (String.mk ("abc".toList ++ '$' :: []))
        = tokensOf (String.mk "abc".toList) ++ tokensOf (String.mk [])
      ∧ replace_placeholders (String.mk ("abc".toList ++ '$' :: [])) (fun _ => none)
        = match replace_placeholders (String.mk []) (fun _ => none),
                replace_placeholders (String.mk "abc".toList) (fun _ => none) with
          | .error e, _ => .error e
          | .ok _, .error e => .error e
          | .ok s2, .ok s1 => .ok (String.mk (s1.toList ++ '$' :: s2.toList)) :=
  C10_stray_dollar_verbatim "abc".toList [] (fun _ => none) (by decide) (Or.inl rfl)

/-! ### C4: `$$` escaping, single-pass substitution, marker restore -/

/-- C4 counterexamples to the "passes through unaltered" clause: (1) a
placeholder value equal to the internal escape marker string is rewritten
to `$` by the restore step; (2) even a value that does not contain the
whole marker is altered when its U+FFFF characters combine with U+FFFF
characters contributed by the pattern across the substitution boundary. -/
theorem C4_counterexample :
    (replace_placeholders "$a" (fun n => if n = "a" then some markerStr else none)
        = .ok "$"
      ∧ ("$" : String) ≠ markerStr)
    ∧ (replace_placeholders "￿ESCAPED$a"
          (fun n => if n = "a" then some "￿x" else none)
        = .ok "$x"
      ∧ ("$x" : String) ≠ "￿ESCAPED￿x") := by
  refine ⟨⟨by decide, by decide⟩, by decide, by decide⟩

/-- C4 (amended): split any pattern containing `$$` as `u ++ $$ ++ p` at
an escape occurrence (`escClean u` says the shown `$$` really is a pair of
the left-to-right replace; the segment before the first escape always
qualifies, and it also satisfies `noEsc u`).  Then: (1) the escape
contributes no token and the following characters are tokenized exactly as
on their own; (2) when `u` is escape-free and U+FFFF-free and all
placeholder values are U+FFFF-free, expansion emits a literal `$` for the
`$$` and splices the two sides' independent expansions around it (`p` may
contain further `$$`, handled by applying the statement to it in turn);
(3) expansion is single-pass: a resolved `$w` token anywhere in the
pattern contributes exactly the token `w`, and its (U+FFFF-free) value is
spliced into the output verbatim — never rescanned for tokens — with the
remainder of the pattern expanding independently of the value.  Without
the U+FFFF restrictions values are *not* passed through verbatim: the
restore step rewrites every marker occurrence of the final output,
wherever its characters came from (see `C4_counterexample`). -/
theorem C4_escape_and_single_pass :
    (∀ (u p : List Char), escClean u = true →
      tokensOf (String.mk (u ++ '$' :: '$' :: p))
        = tokensOf (String.mk u) ++ tokensOf (String.mk p))
  ∧ (∀ (u p : List Char) (ph : String → Option String),
      escClean u = true → noEsc u = true → (∀ c ∈ u, c ≠ '￿') →
      (∀ n v, ph n = some v → ∀ c ∈ v.toList, c ≠ '￿') →
      replace_placeholders (String.mk (u ++ '$' :: '$' :: p)) ph
        = match replace_placeholders (String.mk p) ph,
                replace_placeholders (String.mk u) ph with
          | .error e, _ => .error e
          | .ok _, .error e => .error e
          | .ok s2, .ok s1 => .ok (String.mk (s1.toList ++ '$' :: s2.toList)))
  ∧ (∀ (u w rest : List Char) (v : String) (ph : String → Option String),
      escClean u = true → noEsc u = true → (∀ c ∈ u, c ≠ '￿') →
      (∀ n v2, ph n = some v2 → ∀ c ∈ v2.toList, c ≠ '￿') →
      w ≠ [] → (∀ c ∈ w, isWordChar c = true) →
      ph (String.mk w) = some v → strayHead rest →
      tokensOf (String.mk (u ++ '$' :: (w ++ rest)))
          = tokensOf (String.mk u) ++ String.mk w :: tokensOf (String.mk rest)
        ∧ replace_placeholders (String.mk (u ++ '$' :: (w ++ rest))) ph
          = match replace_placeholders (String.mk rest) ph,
                  replace_placeholders (String.mk u) ph with
            | .error e, _ => .error e
            | .ok _, .error e => .error e
            | .ok s2, .ok s1 =>
                .ok (String.mk (s1.toList ++ v.toList ++ s2.toList))) := by
  refine ⟨?_, ?_, ?_⟩
  · intro u p hu
    have hX : strayHead (marker ++ replaceEsc p) :=
      Or.inr ⟨'￿', marker.tail ++ replaceEsc p, rfl, by decide, by decide⟩
    have hesc : replaceEsc (u ++ '$' :: '$' :: p)
        = replaceEsc u ++ (marker ++ replaceEsc p) := by
      rw [replaceEsc_split ('$' :: '$' :: p) u hu, replaceEsc_esc]
    simp only [tokensOf, toList_mk]
    rw [hesc, tokenNames_nonword_split (marker ++ replaceEsc p) hX (replaceEsc u) .top,
      tokenNames_top_append marker (replaceEsc p) marker_no_dollar]
  · intro u p ph hu hne hUf hV
    have hEu : replaceEsc u = u := replaceEsc_noEsc_id u hne
    have hX : strayHead (marker ++ replaceEsc p) :=
      Or.inr ⟨'￿', marker.tail ++ replaceEsc p, rfl, by decide, by decide⟩
    have hesc : replaceEsc (u ++ '$' :: '$' :: p)
        = u ++ (marker ++ replaceEsc p) := by
      rw [replaceEsc_split ('$' :: '$' :: p) u hu, replaceEsc_esc, hEu]
    have htok : tokenNames .top (u ++ (marker ++ replaceEsc p))
        = tokenNames .top u ++ tokenNames .top (replaceEsc p) := by
      rw [tokenNames_nonword_split (marker ++ replaceEsc p) hX u .top,
        tokenNames_top_append marker (replaceEsc p) marker_no_dollar]
    have hmiss := scanMiss_of_tokens_append ph
      (u ++ (marker ++ replaceEsc p)) u (replaceEsc p) htok
    have ho1 : ∀ x ∈ scanOut ph .top u, x ≠ '￿' := scanOut_no_fff ph hV u .top hUf
    simp only [replace_placeholders, toList_mk]
    rw [hesc, hEu, hmiss]
    cases h2 : scanMiss ph .top (replaceEsc p) with
    | some n => rfl
    | none =>
        cases h1 : scanMiss ph .top u with
        | some n => rfl
        | none =>
            rw [scanOut_nonword_split ph (marker ++ replaceEsc p) hX u .top,
              scanOut_top_append ph marker (replaceEsc p) marker_no_dollar,
              replaceMarker_append _ _ ho1, replaceMarker_marker,
              replaceMarker_nofff_id _ ho1]
            rfl
  · intro u w rest v ph hu hne hUf hV hwne hw hph hrest
    have hEu : replaceEsc u = u := replaceEsc_noEsc_id u hne
    have hE2 : strayHead (replaceEsc rest) := replaceEsc_strayHead rest hrest
    have hwd : ∀ c ∈ w, c ≠ '$' := fun c hc => isWordChar_ne_dollar c (hw c hc)
    have hesc : replaceEsc (u ++ '$' :: (w ++ rest))
        = u ++ '$' :: (w ++ replaceEsc rest) := by
      rw [replaceEsc_split ('$' :: (w ++ rest)) u hu, hEu]
      cases w with
      | nil => exact absurd rfl hwne
      | cons c w2 =>
          rw [List.cons_append, replaceEsc_dollar_cons c _ (hwd c (List.mem_cons_self c w2)),
            show c :: (w2 ++ rest) = (c :: w2) ++ rest from rfl,
            replaceEsc_append (c :: w2) rest hwd]
    have htok : tokenNames .top (u ++ '$' :: (w ++ replaceEsc rest))
        = tokenNames .top u ++ (String.mk w :: tokenNames .top (replaceEsc rest)) :=
      tokenNames_token_split w (replaceEsc rest) hwne hw hE2 u .top
    have hres : (ph (String.mk w)).isNone = false := by simp [hph]
    have hmiss := scanMiss_of_tokens_middle ph
      (u ++ '$' :: (w ++ replaceEsc rest)) u (replaceEsc rest) (String.mk w) hres htok
    have ho1 : ∀ x ∈ scanOut ph .top u, x ≠ '￿' := scanOut_no_fff ph hV u .top hUf
    have hov : ∀ x ∈ scanOut ph .top u ++ v.toList, x ≠ '￿' := by
      intro x hx
      rcases List.mem_append.mp hx with h1 | h1
      · exact ho1 x h1
      · exact hV _ _ hph x h1
    constructor
    · simp only [tokensOf, toList_mk]
      rw [hesc, htok, hEu]
    · simp only [replace_placeholders, toList_mk]
      rw [hesc, hEu, hmiss]
      cases h2 : scanMiss ph .top (replaceEsc rest) with
      | some n => rfl
      | none =>
          cases h1 : scanMiss ph .top u with
          | some n => rfl
          | none =>
              rw [scanOut_token_split ph w v (replaceEsc rest) hwne hw hph hE2 u .top,
                ← List.append_assoc, replaceMarker_append _ _ hov,
                replaceMarker_nofff_id _ ho1]
              rfl

/-- Witness for `C4_escape_and_single_pass`: its three parts instantiated
at the mid-pattern escape `x$$y` (tokens and output splice) and at the
mid-pattern token of `x$a/y` with `a` bound to `V`. -/
theorem C4_witness :
    (tokensOf (String.mk ("x".toList ++ '$' :: '$' :: "y".toList))
        = tokensOf (String.mk "x".toList) ++ tokensOf (String.mk "y".toList))
  ∧ (replace_placeholders (String.mk ("x".toList ++ '$' :: '$' :: "y".toList))
        (fun _ => none)
      = match replace_placeholders (String.mk "y".toList) (fun _ => none),
              replace_placeholders (String.mk "x".toList) (fun _ => none) with
        | .error e, _ => .error e
        | .ok _, .error e => .error e
        | .ok s2, .ok s1 => .ok (String.mk (s1.toList ++ '$' :: s2.toList)))
  ∧ (tokensOf (String.mk ("x".toList ++ '$' :: ("a".toList ++ "/y".toList)))
        = tokensOf (String.mk "x".toList)
            ++ String.mk "a".toList :: tokensOf (String.mk "/y".toList)
      ∧ replace_placeholders (String.mk ("x".toList ++ '$' :: ("a".toList ++ "/y".toList)))
          (fun n => if n = "a" then some "V" else none)
        = match replace_placeholders (String.mk "/y".toList)
                  (fun n => if n = "a" then some "V" else none),
                replace_placeholders (String.mk "x".toList)
                  (fun n => if n = "a" then some "V" else none) with
          | .error e, _ => .error e
          | .ok _, .error e => .error e
          | .ok s2, .ok s1 =>
              .ok (String.mk (s1.toList ++ ("V" : String).toList ++ s2.toList))) :=
  ⟨C4_escape_and_single_pass.1 "x".toList "y".toList (by decide),
   C4_escape_and_single_pass.2.1 "x".toList "y".toList (fun _ => none)
     (by decide) (by decide) (by decide) (fun _ _ h => Option.noConfusion h),
   C4_escape_and_single_pass.2.2 "x".toList "a".toList "/y".toList "V"
     (fun n => if n = "a" then some "V" else none)
     (by decide) (by decide) (by decide)
     (by
       intro n v2 h c hc
       have h2 : (if n = "a" then (some "V" : Option String) else none) = some v2 := h
       by_cases hn : n = "a"
       · rw [if_pos hn] at h2
         obtain rfl := Option.some.inj h2
         obtain rfl := List.mem_singleton.mp hc
         decide
       · rw [if_neg hn] at h2
         exact Option.noConfusion h2)
     (by decide) (by decide) (by decide)
     (Or.inr ⟨'/', "y".toList, rfl, by decide, by decide⟩)⟩

/-! ### Data model and resolution engine (src/parser.rs types, src/lib.rs engine) -/

/-- Mirror of `SecretProviderConfig` from src/parser.rs (the borrowed `&str`
identifier pattern becomes an owned `String`). -/
inductive SecretProviderConfig where
  | AwsSm : String → SecretProviderConfig
  | AwsPs : String → SecretProviderConfig
deriving DecidableEq, Repr

/-- Mirror of `SecretConfig` from src/parser.rs. -/
structure SecretConfig where
  required : Bool
  provider_config : SecretProviderConfig
deriving DecidableEq, Repr

/-- Mirror of `EnvEntry` from src/parser.rs (`Cow` values become `String`). -/
structure EnvEntry where
  key : String
  value : Option String
  secret : Option SecretConfig
deriving DecidableEq, Repr

/-- `IndexMap::insert` on the association-list embedding of `IndexMap`: an
existing key keeps its position and gets the new value, a new key is
appended. -/
def imInsert (m : List (String × α)) (k : String) (v : α) : List (String × α) :=
  if m.any (fun p => p.1 == k) then
    m.map (fun p => if p.1 == k then (k, v) else p)
  else m ++ [(k, v)]

/-- `IndexMap::extend` (and `FromIterator`): repeated `imInsert`. -/
def imExtend (m : List (String × α)) (l : List (String × α)) : List (String × α) :=
  l.foldl (fun acc p => imInsert acc p.1 p.2) m

/-- `collect()` of key/value pairs into an `IndexMap`. -/
def imCollect (l : List (String × α)) : List (String × α) :=
  imExtend [] l

/-- The `(key, value)` pairs of the entries whose value is present, in
order: `entries.into_iter().filter_map(|e| e.value.map(|v| (e.key, v)))`
from src/lib.rs. -/
def pairsOf (es : List EnvEntry) : List (String × String) :=
  es.filterMap (fun e => e.value.map (fun v => (e.key, v)))

/-- `iter().enumerate()` starting at `n`. -/
def enumFrom (n : Nat) : List α → List (Nat × α)
  | [] => []
  | a :: r => (n, a) :: enumFrom (n + 1) r

/-- The first loop of `process_entries` (src/lib.rs lines 29-45): walk the
enumerated entries, expand each secret directive's identifier pattern
(propagating the first expansion error), and partition the expanded
`(index, identifier)` pairs into the Secrets Manager group and the
Parameter Store group. -/
def collectGroups (ph : String → Option String) :
    List (Nat × EnvEntry) → Except Error (List (Nat × String) × List (Nat × String))
  | [] => .ok ([], [])
  | (i, e) :: rest =>
    match e.secret with
    | none => collectGroups ph rest
    | some cfg =>
      match cfg.provider_config with
      | .AwsSm id =>
        match replace_placeholders id ph with
        | .error er => .error er
        | .ok s =>
          match collectGroups ph rest with
          | .error er => .error er
          | .ok (sm, ps) => .ok ((i, s) :: sm, ps)
      | .AwsPs id =>
        match replace_placeholders id ph with
        | .error er => .error er
        | .ok s =>
          match collectGroups ph rest with
          | .error er => .error er
          | .ok (sm, ps) => .ok (sm, (i, s) :: ps)

/-- The scatter loop of `process_entries` (src/lib.rs lines 53-62 and 71-80):
for each `((index, identifier), fetched)` pair, a fetched value overwrites
the entry's value; an absent result on a `required` directive aborts with
`ParameterNotFound(identifier)`; an absent result on an optional directive
leaves the entry alone.  The `(_, None) => unreachable!()` arm and an
out-of-range index are panics. -/
def scatterGroup : List EnvEntry → List ((Nat × String) × Option String) →
    Except Error (List EnvEntry)
  | entries, [] => .ok entries
  | entries, ((i, id), secret) :: rest =>
    match entries.get? i with
    | none => .error (.Panic "index out of range")
    | some e =>
      match secret, e.secret with
      | _, none => .error (.Panic "unreachable")
      | some s, some _ => scatterGroup (entries.set i { e with value := some s }) rest
      | none, some cfg =>
          if cfg.required then .error (.ParameterNotFound id)
          else scatterGroup entries rest

/-- The fetch-and-scatter phase of `process_entries`: group, call each
backend's provider once per non-empty group (the providers are the §4.3
capability boundary, `try_provide_secrets`, passed in as functions), and
scatter the results; Secrets Manager first, Parameter Store second, exactly
as in src/lib.rs. -/
def fetchPhase (entries : List EnvEntry) (ph : String → Option String)
    (smProvide psProvide : List String → Except Error (List (Option String))) :
    Except Error (List EnvEntry) :=
  match collectGroups ph (enumFrom 0 entries) with
  | .error er => .error er
  | .ok (sm, ps) =>
    let step1 : Except Error (List EnvEntry) :=
      if sm.isEmpty then .ok entries
      else
        match smProvide (sm.map (fun p => p.2)) with
        | .error er => .error er
        | .ok secrets => scatterGroup entries (sm.zip secrets)
    match step1 with
    | .error er => .error er
    | .ok es1 =>
      if ps.isEmpty then .ok es1
      else
        match psProvide (ps.map (fun p => p.2)) with
        | .error er => .error er
        | .ok secrets => scatterGroup es1 (ps.zip secrets)

/-- Embeds `process_entries` from src/lib.rs: fetch and scatter secrets,
collect the present-valued entries into an `IndexMap` in declaration order,
then extend it with the overrides. -/
def process_entries (entries : List EnvEntry) (overrides : List (String × String))
    (ph : String → Option String)
    (smProvide psProvide : List String → Except Error (List (Option String))) :
    Except Error (List (String × String)) :=
  match fetchPhase entries ph smProvide psProvide with
  | .error er => .error er
  | .ok es => .ok (imExtend (imCollect (pairsOf es)) overrides)

/-- A provider backed by an abstract store: reports `store id` for every
requested identifier positionally and never fails (the "backend reports
present/absent" boundary of §4.3). -/
def okProvider (store : String → Option String) :
    List String → Except Error (List (Option String)) :=
  fun ids => .ok (ids.map store)

/-- Entry `i` exists and carries a `required` secret directive. -/
def requiredAt (entries : List EnvEntry) (i : Nat) : Prop :=
  ∃ e cfg, entries.get? i = some e ∧ e.secret = some cfg ∧ cfg.required = true

/-- Some identifier of the group is absent in the store while its entry's
directive is `required`. -/
def groupHasMissing (entries : List EnvEntry) (g : List (Nat × String))
    (store : String → Option String) : Prop :=
  ∃ p ∈ g, store p.2 = none ∧ requiredAt entries p.1

/-! ### IndexMap lemmas -/

theorem imExtend_nil (m : List (String × α)) : imExtend m [] = m := rfl

theorem imAny_iff_mem (m : List (String × α)) (k : String) :
    m.any (fun p => p.1 == k) = true ↔ k ∈ m.map (fun p => p.1) := by
  simp [List.any_eq_true]

theorem lookup_cons_eq_if (k : String) (p : String × α) (l : List (String × α)) :
    List.lookup k (p :: l) = if k = p.1 then some p.2 else List.lookup k l := by
  by_cases h : k = p.1
  · rw [List.lookup, show (k == p.1) = true from beq_iff_eq.mpr h, if_pos h]
  · rw [List.lookup, show (k == p.1) = false from beq_eq_false_iff_ne.mpr h, if_neg h]

theorem lookup_replace (m : List (String × α)) (k : String) (v : α)
    (h : k ∈ m.map (fun p => p.1)) :
    List.lookup k (m.map (fun p => if p.1 == k then (k, v) else p)) = some v := by
  induction m with
  | nil => simp at h
  | cons p m2 ih =>
      simp only [List.map_cons, List.mem_cons] at h
      by_cases hp : p.1 = k
      · rw [List.map_cons, if_pos (by simp [hp]), lookup_cons_eq_if, if_pos rfl]
      · rw [List.map_cons, if_neg (by simp [hp]), lookup_cons_eq_if,
          if_neg (fun he => hp he.symm)]
        exact ih (h.resolve_left (fun he => hp he.symm))

theorem lookup_map_replace_ne (m : List (String × α)) (k k' : String) (v : α)
    (h : k' ≠ k) :
    List.lookup k' (m.map (fun p => if p.1 == k then (k, v) else p))
      = List.lookup k' m := by
  induction m with
  | nil => rfl
  | cons p m2 ih =>
      by_cases hp : p.1 = k
      · rw [List.map_cons, if_pos (by simp [hp]), lookup_cons_eq_if, lookup_cons_eq_if,
          if_neg h, if_neg (fun he => h (hp ▸ he))]
        exact ih
      · rw [List.map_cons, if_neg (by simp [hp]), lookup_cons_eq_if, lookup_cons_eq_if]
        by_cases hk : k' = p.1
        · rw [if_pos hk, if_pos hk]
        · rw [if_neg hk, if_neg hk]
          exact ih

theorem lookup_append_left_none (m l : List (String × α)) (k : String)
    (h : ¬ k ∈ m.map (fun p => p.1)) :
    List.lookup k (m ++ l) = List.lookup k l := by
  induction m with
  | nil => rfl
  | cons p m2 ih =>
      simp only [List.map_cons, List.mem_cons] at h
      push_neg at h
      rw [List.cons_append, lookup_cons_eq_if, if_neg h.1]
      exact ih h.2

theorem lookup_append_single_ne (m : List (String × α)) (k k' : String) (v : α)
    (h : k' ≠ k) :
    List.lookup k' (m ++ [(k, v)]) = List.lookup k' m := by
  induction m with
  | nil => rw [List.nil_append, lookup_cons_eq_if, if_neg h]
  | cons p m2 ih =>
      rw [List.cons_append, lookup_cons_eq_if, lookup_cons_eq_if]
      by_cases hk : k' = p.1
      · rw [if_pos hk, if_pos hk]
      · rw [if_neg hk, if_neg hk]
        exact ih

theorem imInsert_lookup_self (m : List (String × α)) (k : String) (v : α) :
    List.lookup k (imInsert m k v) = some v := by
  rw [imInsert]
  by_cases hmem : k ∈ m.map (fun p => p.1)
  · rw [if_pos ((imAny_iff_mem m k).mpr hmem)]
    exact lookup_replace m k v hmem
  · rw [if_neg (fun ha => hmem ((imAny_iff_mem m k).mp ha))]
    rw [lookup_append_left_none m _ k hmem, lookup_cons_eq_if, if_pos rfl]

theorem imInsert_lookup_ne (m : List (String × α)) (k k' : String) (v : α)
    (h : k' ≠ k) :
    List.lookup k' (imInsert m k v) = List.lookup k' m := by
  rw [imInsert]
  by_cases ha : m.any (fun p => p.1 == k) = true
  · rw [if_pos ha]
    exact lookup_map_replace_ne m k k' v h
  · rw [if_neg ha]
    exact lookup_append_single_ne m k k' v h

theorem imExtend_lookup_notmem (l : List (String × α)) (k : String)
    (h : ¬ k ∈ l.map (fun p => p.1)) :
    ∀ m, List.lookup k (imExtend m l) = List.lookup k m := by
  induction l with
  | nil => intro m; rfl
  | cons p l2 ih =>
      intro m
      simp only [List.map_cons, List.mem_cons] at h
      rw [show imExtend m (p :: l2) = imExtend (imInsert m p.1 p.2) l2 from rfl,
        ih (fun hm => h (Or.inr hm)),
        imInsert_lookup_ne m p.1 k p.2 (fun he => h (Or.inl he))]

theorem imInsert_keys (m : List (String × α)) (k : String) (v : α) :
    (imInsert m k v).map (fun p => p.1)
      = if k ∈ m.map (fun p => p.1) then m.map (fun p => p.1)
        else m.map (fun p => p.1) ++ [k] := by
  rw [imInsert]
  by_cases hmem : k ∈ m.map (fun p => p.1)
  · rw [if_pos ((imAny_iff_mem m k).mpr hmem), if_pos hmem, List.map_map]
    refine List.map_congr_left ?_
    intro p _
    by_cases hp : p.1 = k
    · simp [hp]
    · simp [hp]
  · rw [if_neg (fun ha => hmem ((imAny_iff_mem m k).mp ha)), if_neg hmem]
    simp

theorem imExtend_keys (l : List (String × α)) (hnd : (l.map (fun p => p.1)).Nodup) :
    ∀ m, (imExtend m l).map (fun p => p.1)
      = m.map (fun p => p.1)
        ++ (l.map (fun p => p.1)).filter
            (fun k => !((m.map (fun p => p.1)).contains k)) := by
  induction l with
  | nil => intro m; simp [imExtend_nil]
  | cons p l2 ih =>
      intro m
      simp only [List.map_cons, List.nodup_cons] at hnd
      rw [show imExtend m (p :: l2) = imExtend (imInsert m p.1 p.2) l2 from rfl,
        ih hnd.2, imInsert_keys]
      by_cases hmem : p.1 ∈ m.map (fun q => q.1)
      · rw [if_pos hmem, List.map_cons,
          List.filter_cons_of_neg (by simpa [List.elem_iff] using hmem)]
      · rw [if_neg hmem, List.map_cons,
          List.filter_cons_of_pos (by simpa [List.elem_iff] using hmem)]
        rw [List.append_assoc, List.singleton_append]
        congr 1
        congr 1
        refine List.filter_congr ?_
        intro x hx
        have hxne : x ≠ p.1 := fun he => hnd.1 (he ▸ hx)
        simp [List.elem_iff, hxne]

/-! ### Facts about enumeration, grouping and scattering -/

theorem get?_set_self (l : List α) (i : Nat) (a b : α) (h : l.get? i = some b) :
    (l.set i a).get? i = some a := by
  rw [List.get?_set_eq, h]
  rfl

theorem get?_set_other (l : List α) (i j : Nat) (a : α) (h : i ≠ j) :
    (l.set i a).get? j = l.get? j :=
  List.get?_set_ne _ _ h

theorem enumFrom_mem_get? (l : List α) :
    ∀ n i a, (i, a) ∈ enumFrom n l → n ≤ i ∧ l.get? (i - n) = some a := by
  induction l with
  | nil =>
      intro n i a h
      simp [enumFrom] at h
  | cons b l2 ih =>
      intro n i a h
      rw [enumFrom] at h
      rcases List.mem_cons.mp h with he | hm
      · obtain ⟨h1, h2⟩ := Prod.mk.injEq .. ▸ he
        subst h1
        subst h2
        exact ⟨Nat.le_refl _, by simp⟩
      · have h3 := ih (n + 1) i a hm
        refine ⟨Nat.le_of_succ_le h3.1, ?_⟩
        have h4 : i - n = (i - (n + 1)) + 1 := by omega
        rw [h4]
        simpa using h3.2

theorem enumFrom_mem_unique (l : List α) (n i : Nat) (a b : α)
    (ha : (i, a) ∈ enumFrom n l) (hb : (i, b) ∈ enumFrom n l) : a = b := by
  have h1 := enumFrom_mem_get? l n i a ha
  have h2 := enumFrom_mem_get? l n i b hb
  rw [h1.2] at h2
  exact Option.some.inj h2.2

theorem collectGroups_sm_spec (ph : String → Option String) :
    ∀ (l : List (Nat × EnvEntry)) (sm ps : List (Nat × String)),
      collectGroups ph l = .ok (sm, ps) →
      ∀ q ∈ sm, ∃ e cfg pid, (q.1, e) ∈ l ∧ e.secret = some cfg ∧
        cfg.provider_config = .AwsSm pid ∧ replace_placeholders pid ph = .ok q.2 := by
  intro l
  induction l with
  | nil =>
      intro sm ps h q hq
      rw [collectGroups] at h
      obtain ⟨h1, h2⟩ := Prod.mk.injEq .. ▸ Except.ok.inj h
      subst h1
      cases hq
  | cons p l2 ih =>
      obtain ⟨i, e⟩ := p
      intro sm ps h q hq
      rw [collectGroups] at h
      split at h
      · obtain ⟨e2, cfg, pid, hmem, h5, h6, h7⟩ := ih sm ps h q hq
        exact ⟨e2, cfg, pid, List.mem_cons_of_mem _ hmem, h5, h6, h7⟩
      · rename_i cfg hsec
        split at h
        · rename_i pid hpc
          split at h
          · exact Except.noConfusion h
          · rename_i s hrp
            split at h
            · exact Except.noConfusion h
            · rename_i sm2 ps2 hcg
              obtain ⟨h1, h2⟩ := Prod.mk.injEq .. ▸ Except.ok.inj h
              subst h1
              subst h2
              rcases List.mem_cons.mp hq with he | hm
              · subst he
                exact ⟨e, cfg, pid, List.mem_cons_self _ _, hsec, hpc, hrp⟩
              · obtain ⟨e2, cfg2, pid2, hmem, h5, h6, h7⟩ := ih sm2 ps2 hcg q hm
                exact ⟨e2, cfg2, pid2, List.mem_cons_of_mem _ hmem, h5, h6, h7⟩
        · rename_i pid hpc
          split at h
          · exact Except.noConfusion h
          · rename_i s hrp
            split at h
            · exact Except.noConfusion h
            · rename_i sm2 ps2 hcg
              obtain ⟨h1, h2⟩ := Prod.mk.injEq .. ▸ Except.ok.inj h
              subst h1
              subst h2
              obtain ⟨e2, cfg2, pid2, hmem, h5, h6, h7⟩ := ih sm2 ps2 hcg q hq
              exact ⟨e2, cfg2, pid2, List.mem_cons_of_mem _ hmem, h5, h6, h7⟩

theorem collectGroups_ps_spec (ph : String → Option String) :
    ∀ (l : List (Nat × EnvEntry)) (sm ps : List (Nat × String)),
      collectGroups ph l = .ok (sm, ps) →
      ∀ q ∈ ps, ∃ e cfg pid, (q.1, e) ∈ l ∧ e.secret = some cfg ∧
        cfg.provider_config = .AwsPs pid ∧ replace_placeholders pid ph = .ok q.2 := by
  intro l
  induction l with
  | nil =>
      intro sm ps h q hq
      rw [collectGroups] at h
      obtain ⟨h1, h2⟩ := Prod.mk.injEq .. ▸ Except.ok.inj h
      subst h2
      cases hq
  | cons p l2 ih =>
      obtain ⟨i, e⟩ := p
      intro sm ps h q hq
      rw [collectGroups] at h
      split at h
      · obtain ⟨e2, cfg, pid, hmem, h5, h6, h7⟩ := ih sm ps h q hq
        exact ⟨e2, cfg, pid, List.mem_cons_of_mem _ hmem, h5, h6, h7⟩
      · rename_i cfg hsec
        split at h
        · rename_i pid hpc
          split at h
          · exact Except.noConfusion h
          · rename_i s hrp
            split at h
            · exact Except.noConfusion h
            · rename_i sm2 ps2 hcg
              obtain ⟨h1, h2⟩ := Prod.mk.injEq .. ▸ Except.ok.inj h
              subst h1
              subst h2
              obtain ⟨e2, cfg2, pid2, hmem, h5, h6, h7⟩ := ih sm2 ps2 hcg q hq
              exact ⟨e2, cfg2, pid2, List.mem_cons_of_mem _ hmem, h5, h6, h7⟩
        · rename_i pid hpc
          split at h
          · exact Except.noConfusion h
          · rename_i s hrp
            split at h
            · exact Except.noConfusion h
            · rename_i sm2 ps2 hcg
              obtain ⟨h1, h2⟩ := Prod.mk.injEq .. ▸ Except.ok.inj h
              subst h1
              subst h2
              rcases List.mem_cons.mp hq with he | hm
              · subst he
                exact ⟨e, cfg, pid, List.mem_cons_self _ _, hsec, hpc, hrp⟩
              · obtain ⟨e2, cfg2, pid2, hmem, h5, h6, h7⟩ := ih sm2 ps2 hcg q hm
                exact ⟨e2, cfg2, pid2, List.mem_cons_of_mem _ hmem, h5, h6, h7⟩

/-- The scatter loop only rewrites entry values: key and secret directive at
every position are preserved. -/
def samePos (entries es : List EnvEntry) : Prop :=
  ∀ j, (es.get? j).map (fun e => (e.key, e.secret))
    = (entries.get? j).map (fun e => (e.key, e.secret))

theorem samePos_refl (entries : List EnvEntry) : samePos entries entries :=
  fun _ => rfl

theorem samePos_trans {a b c : List EnvEntry} (h1 : samePos a b) (h2 : samePos b c) :
    samePos a c :=
  fun j => (h2 j).trans (h1 j)

theorem samePos_set (entries : List EnvEntry) (i : Nat) (e : EnvEntry)
    (v : Option String) (h : entries.get? i = some e) :
    samePos entries (entries.set i { e with value := v }) := by
  intro j
  by_cases hij : i = j
  · subst hij
    rw [get?_set_self _ _ _ _ h, h]
    rfl
  · rw [get?_set_other _ _ _ _ hij]

theorem requiredAt_of_samePos {entries es : List EnvEntry}
    (h : samePos entries es) (j : Nat) :
    requiredAt es j ↔ requiredAt entries j := by
  have hj := h j
  constructor
  · rintro ⟨e, cfg, hget, hsec, hreq⟩
    rw [hget] at hj
    cases hget2 : entries.get? j with
    | none => rw [hget2] at hj; cases hj
    | some e2 =>
        rw [hget2] at hj
        obtain ⟨hk, hs⟩ := Prod.mk.injEq .. ▸ Option.some.inj hj
        exact ⟨e2, cfg, hget2, hs ▸ hsec, hreq⟩
  · rintro ⟨e, cfg, hget, hsec, hreq⟩
    rw [hget] at hj
    cases hget2 : es.get? j with
    | none => rw [hget2] at hj; cases hj
    | some e2 =>
        rw [hget2] at hj
        obtain ⟨hk, hs⟩ := Prod.mk.injEq .. ▸ Option.some.inj hj
        exact ⟨e2, cfg, hget2, hs.symm ▸ hsec, hreq⟩

theorem hasSecretAt_of_samePos {entries es : List EnvEntry}
    (h : samePos entries es) (j : Nat) (e : EnvEntry) (cfg : SecretConfig)
    (hget : entries.get? j = some e) (hsec : e.secret = some cfg) :
    ∃ e2, es.get? j = some e2 ∧ e2.secret = some cfg := by
  have hj := h j
  rw [hget] at hj
  cases hget2 : es.get? j with
  | none => rw [hget2] at hj; cases hj
  | some e2 =>
      rw [hget2] at hj
      obtain ⟨hk, hs⟩ := Prod.mk.injEq .. ▸ Option.some.inj hj
      exact ⟨e2, rfl, hs ▸ hsec⟩

theorem zip_okProvider (g : List (Nat × String)) (store : String → Option String) :
    g.zip ((g.map (fun p => p.2)).map store) = g.map (fun p => (p, store p.2)) := by
  induction g with
  | nil => rfl
  | cons p g2 ih =>
      simp only [List.map_cons, List.zip_cons_cons]
      rw [ih]

theorem scatterGroup_ok (pairs : List ((Nat × String) × Option String)) :
    ∀ entries : List EnvEntry,
    (∀ q ∈ pairs, ∃ e cfg, entries.get? q.1.1 = some e ∧ e.secret = some cfg) →
    (∀ q ∈ pairs, q.2 = none → ¬ requiredAt entries q.1.1) →
    ∃ es, scatterGroup entries pairs = .ok es ∧ samePos entries es ∧
      (∀ j, (∀ q ∈ pairs, q.1.1 = j → q.2 = none) → es.get? j = entries.get? j) := by
  induction pairs with
  | nil =>
      intro entries hpre hnomiss
      exact ⟨entries, rfl, samePos_refl entries, fun j _ => rfl⟩
  | cons q0 pairs2 ih =>
      obtain ⟨⟨i, id⟩, sec⟩ := q0
      intro entries hpre hnomiss
      obtain ⟨e, cfg, hget, hsec⟩ := hpre _ (List.mem_cons_self _ _)
      cases sec with
      | some s =>
          have hgetE : entries[i]? = some e := by simpa using hget
          have hstep : scatterGroup entries (((i, id), some s) :: pairs2)
              = scatterGroup (entries.set i { e with value := some s }) pairs2 := by
            simp [scatterGroup, hgetE, hsec]
          have hsp : samePos entries (entries.set i { e with value := some s }) :=
            samePos_set entries i e (some s) hget
          have hpre2 : ∀ q ∈ pairs2, ∃ e2 cfg2,
              (entries.set i { e with value := some s }).get? q.1.1 = some e2
                ∧ e2.secret = some cfg2 := by
            intro q hq
            obtain ⟨e2, cfg2, hg2, hs2⟩ := hpre q (List.mem_cons_of_mem _ hq)
            obtain ⟨e3, hg3, hs3⟩ := hasSecretAt_of_samePos hsp q.1.1 e2 cfg2 hg2 hs2
            exact ⟨e3, cfg2, hg3, hs3⟩
          have hnomiss2 : ∀ q ∈ pairs2, q.2 = none →
              ¬ requiredAt (entries.set i { e with value := some s }) q.1.1 := by
            intro q hq hn hr
            exact hnomiss q (List.mem_cons_of_mem _ hq) hn
              ((requiredAt_of_samePos hsp q.1.1).mp hr)
          obtain ⟨es, hok, hsp2, hunch⟩ := ih _ hpre2 hnomiss2
          refine ⟨es, hstep.trans hok, samePos_trans hsp hsp2, ?_⟩
          intro j hall
          have hne : i ≠ j := fun he =>
            Option.noConfusion (hall _ (List.mem_cons_self _ _) he)
          rw [hunch j (fun q hq hj => hall q (List.mem_cons_of_mem _ hq) hj),
            get?_set_other _ _ _ _ hne]
      | none =>
          have hreqf : cfg.required = false := by
            cases hcr : cfg.required
            · rfl
            · exact absurd ⟨e, cfg, hget, hsec, hcr⟩
                (hnomiss _ (List.mem_cons_self _ _) rfl)
          have hgetE : entries[i]? = some e := by simpa using hget
          have hstep : scatterGroup entries (((i, id), none) :: pairs2)
              = scatterGroup entries pairs2 := by
            simp [scatterGroup, hgetE, hsec, hreqf]
          obtain ⟨es, hok, hsp2, hunch⟩ :=
            ih entries (fun q hq => hpre q (List.mem_cons_of_mem _ hq))
              (fun q hq => hnomiss q (List.mem_cons_of_mem _ hq))
          exact ⟨es, hstep.trans hok, hsp2,
            fun j hall => hunch j (fun q hq hj => hall q (List.mem_cons_of_mem _ hq) hj)⟩

theorem scatterGroup_err (pairs : List ((Nat × String) × Option String)) :
    ∀ entries : List EnvEntry,
    (∀ q ∈ pairs, ∃ e cfg, entries.get? q.1.1 = some e ∧ e.secret = some cfg) →
    (∃ q ∈ pairs, q.2 = none ∧ requiredAt entries q.1.1) →
    ∃ q, q ∈ pairs ∧ q.2 = none ∧ requiredAt entries q.1.1 ∧
      scatterGroup entries pairs = .error (.ParameterNotFound q.1.2) := by
  induction pairs with
  | nil =>
      intro entries _ hmiss
      obtain ⟨q, hq, _⟩ := hmiss
      cases hq
  | cons q0 pairs2 ih =>
      obtain ⟨⟨i, id⟩, sec⟩ := q0
      intro entries hpre hmiss
      obtain ⟨e, cfg, hget, hsec⟩ := hpre _ (List.mem_cons_self _ _)
      cases sec with
      | some s =>
          have hgetE : entries[i]? = some e := by simpa using hget
          have hstep : scatterGroup entries (((i, id), some s) :: pairs2)
              = scatterGroup (entries.set i { e with value := some s }) pairs2 := by
            simp [scatterGroup, hgetE, hsec]
          have hsp : samePos entries (entries.set i { e with value := some s }) :=
            samePos_set entries i e (some s) hget
          have hpre2 : ∀ q ∈ pairs2, ∃ e2 cfg2,
              (entries.set i { e with value := some s }).get? q.1.1 = some e2
                ∧ e2.secret = some cfg2 := by
            intro q hq
            obtain ⟨e2, cfg2, hg2, hs2⟩ := hpre q (List.mem_cons_of_mem _ hq)
            obtain ⟨e3, hg3, hs3⟩ := hasSecretAt_of_samePos hsp q.1.1 e2 cfg2 hg2 hs2
            exact ⟨e3, cfg2, hg3, hs3⟩
          have hmiss2 : ∃ q ∈ pairs2, q.2 = none
              ∧ requiredAt (entries.set i { e with value := some s }) q.1.1 := by
            obtain ⟨q, hq, hn, hr⟩ := hmiss
            rcases List.mem_cons.mp hq with he | hm
            · rw [he] at hn
              cases hn
            · exact ⟨q, hm, hn, (requiredAt_of_samePos hsp q.1.1).mpr hr⟩
          obtain ⟨q, hq, hn, hr, herr⟩ := ih _ hpre2 hmiss2
          exact ⟨q, List.mem_cons_of_mem _ hq, hn,
            (requiredAt_of_samePos hsp q.1.1).mp hr, hstep.trans herr⟩
      | none =>
          cases hcr : cfg.required with
          | true =>
              have hgetE : entries[i]? = some e := by simpa using hget
              have hstep : scatterGroup entries (((i, id), none) :: pairs2)
                  = .error (.ParameterNotFound id) := by
                simp [scatterGroup, hgetE, hsec, hcr]
              exact ⟨((i, id), none), List.mem_cons_self _ _, rfl,
                ⟨e, cfg, hget, hsec, hcr⟩, hstep⟩
          | false =>
              have hgetE : entries[i]? = some e := by simpa using hget
              have hstep : scatterGroup entries (((i, id), none) :: pairs2)
                  = scatterGroup entries pairs2 := by
                simp [scatterGroup, hgetE, hsec, hcr]
              have hmiss2 : ∃ q ∈ pairs2, q.2 = none ∧ requiredAt entries q.1.1 := by
                obtain ⟨q, hq, hn, hr⟩ := hmiss
                rcases List.mem_cons.mp hq with he | hm
                · obtain ⟨e2, cfg2, hget2, hsec2, hcr2⟩ := hr
                  rw [he] at hget2
                  rw [hget] at hget2
                  obtain rfl := Option.some.inj hget2
                  rw [hsec] at hsec2
                  obtain rfl := Option.some.inj hsec2
                  rw [hcr] at hcr2
                  cases hcr2
                · exact ⟨q, hm, hn, hr⟩
              obtain ⟨q, hq, hn, hr, herr⟩ := ih entries
                (fun q hq => hpre q (List.mem_cons_of_mem _ hq)) hmiss2
              exact ⟨q, List.mem_cons_of_mem _ hq, hn, hr, hstep.trans herr⟩

theorem groupStep_ok (entries : List EnvEntry) (g : List (Nat × String))
    (store : String → Option String)
    (hF : ∀ q ∈ g, ∃ e cfg, entries.get? q.1 = some e ∧ e.secret = some cfg)
    (hsame : ∀ q ∈ g, ∀ r ∈ g, q.1 = r.1 → q.2 = r.2)
    (hnm : ¬ groupHasMissing entries g store) :
    ∃ es, scatterGroup entries (g.map (fun p => (p, store p.2))) = .ok es
      ∧ samePos entries es
      ∧ (∀ q ∈ g, store q.2 = none → es.get? q.1 = entries.get? q.1)
      ∧ (∀ j, (∀ q ∈ g, q.1 ≠ j) → es.get? j = entries.get? j) := by
  obtain ⟨es, hok, hsp, hunch⟩ :=
    scatterGroup_ok (g.map (fun p => (p, store p.2))) entries
      (by
        intro q hq
        obtain ⟨p, hp, rfl⟩ := List.mem_map.mp hq
        exact hF p hp)
      (by
        intro q hq hn hreq
        obtain ⟨p, hp, rfl⟩ := List.mem_map.mp hq
        exact hnm ⟨p, hp, hn, hreq⟩)
  refine ⟨es, hok, hsp, ?_, ?_⟩
  · intro q hq hst
    refine hunch q.1 ?_
    intro r hr hj
    obtain ⟨p, hp, rfl⟩ := List.mem_map.mp hr
    have := hsame p hp q hq hj
    rw [this, hst]
  · intro j hnone
    refine hunch j ?_
    intro r hr hj
    obtain ⟨p, hp, rfl⟩ := List.mem_map.mp hr
    exact absurd hj (hnone p hp)

theorem groupStep_err (entries : List EnvEntry) (g : List (Nat × String))
    (store : String → Option String)
    (hF : ∀ q ∈ g, ∃ e cfg, entries.get? q.1 = some e ∧ e.secret = some cfg)
    (hm : groupHasMissing entries g store) :
    ∃ id, scatterGroup entries (g.map (fun p => (p, store p.2)))
        = .error (.ParameterNotFound id)
      ∧ ∃ q ∈ g, q.2 = id ∧ store id = none ∧ requiredAt entries q.1 := by
  obtain ⟨q, hqmem, hn, hr, herr⟩ :=
    scatterGroup_err (g.map (fun p => (p, store p.2))) entries
      (by
        intro q hq
        obtain ⟨p, hp, rfl⟩ := List.mem_map.mp hq
        exact hF p hp)
      (by
        obtain ⟨p, hp, hst, hreq⟩ := hm
        exact ⟨(p, store p.2), List.mem_map.mpr ⟨p, hp, rfl⟩, hst, hreq⟩)
  obtain ⟨p, hp, rfl⟩ := List.mem_map.mp hqmem
  refine ⟨p.2, herr, p, hp, rfl, ?_, hr⟩
  exact hn

theorem fetchPhase_okProvider (entries : List EnvEntry) (ph : String → Option String)
    (smStore psStore : String → Option String) (sm ps : List (Nat × String))
    (hcg : collectGroups ph (enumFrom 0 entries) = .ok (sm, ps)) :
    fetchPhase entries ph (okProvider smStore) (okProvider psStore)
      = match scatterGroup entries (sm.map (fun p => (p, smStore p.2))) with
        | .error er => .error er
        | .ok es1 => scatterGroup es1 (ps.map (fun p => (p, psStore p.2))) := by
  have hifSm : (if sm.isEmpty then (Except.ok entries : Except Error (List EnvEntry))
      else match okProvider smStore (sm.map (fun p => p.2)) with
           | .error er => .error er
           | .ok secrets => scatterGroup entries (sm.zip secrets))
      = scatterGroup entries (sm.map (fun p => (p, smStore p.2))) := by
    by_cases hsmE : sm.isEmpty = true
    · obtain rfl : sm = [] := List.isEmpty_iff.mp hsmE
      simp [scatterGroup]
    · rw [if_neg hsmE]
      show scatterGroup entries (sm.zip ((sm.map (fun p => p.2)).map smStore)) = _
      rw [zip_okProvider]
  simp only [fetchPhase, hcg]
  rw [hifSm]
  cases scatterGroup entries (sm.map (fun p => (p, smStore p.2))) with
  | error er => rfl
  | ok es1 =>
      show (if ps.isEmpty then (Except.ok es1 : Except Error (List EnvEntry))
            else match okProvider psStore (ps.map (fun p => p.2)) with
                 | .error er => .error er
                 | .ok secrets => scatterGroup es1 (ps.zip secrets))
          = scatterGroup es1 (ps.map (fun p => (p, psStore p.2)))
      by_cases hpsE : ps.isEmpty = true
      · obtain rfl : ps = [] := List.isEmpty_iff.mp hpsE
        simp [scatterGroup]
      · rw [if_neg hpsE]
        show scatterGroup es1 (ps.zip ((ps.map (fun p => p.2)).map psStore)) = _
        rw [zip_okProvider]

/-- C1: with the backend modelled as a store consulted positionally
(`okProvider`), (A) if any entry carries a `required` secret directive whose
post-expansion identifier the backend reports absent, `process_entries` fails
with `ParameterNotFound` naming the post-expansion identifier of such an
entry; (B) if no required directive's identifier is absent, resolution
succeeds, and every entry whose directive is optional (non-required) with an
absent identifier is left entirely unchanged — its value stays its
`default_value` (possibly absent). -/
theorem C1_required_absent_fails_optional_defaults
    (entries : List EnvEntry) (ov : List (String × String))
    (ph : String → Option String) (smStore psStore : String → Option String)
    (sm ps : List (Nat × String))
    (hcg : collectGroups ph (enumFrom 0 entries) = .ok (sm, ps)) :
    ((groupHasMissing entries sm smStore ∨ groupHasMissing entries ps psStore) →
      ∃ id, process_entries entries ov ph (okProvider smStore) (okProvider psStore)
          = .error (.ParameterNotFound id)
        ∧ ((∃ q ∈ sm, q.2 = id ∧ smStore id = none ∧ requiredAt entries q.1)
          ∨ (∃ q ∈ ps, q.2 = id ∧ psStore id = none ∧ requiredAt entries q.1)))
  ∧ (¬ groupHasMissing entries sm smStore → ¬ groupHasMissing entries ps psStore →
      ∃ es, fetchPhase entries ph (okProvider smStore) (okProvider psStore) = .ok es
        ∧ process_entries entries ov ph (okProvider smStore) (okProvider psStore)
            = .ok (imExtend (imCollect (pairsOf es)) ov)
        ∧ (∀ q ∈ sm, smStore q.2 = none → es.get? q.1 = entries.get? q.1)
        ∧ (∀ q ∈ ps, psStore q.2 = none → es.get? q.1 = entries.get? q.1)) := by
  have hsmF : ∀ q ∈ sm, ∃ e cfg, entries.get? q.1 = some e ∧ e.secret = some cfg := by
    intro q hq
    obtain ⟨e, cfg, pid, hmem, h5, _, _⟩ := collectGroups_sm_spec ph _ _ _ hcg q hq
    have h8 := (enumFrom_mem_get? entries 0 q.1 e hmem).2
    rw [Nat.sub_zero] at h8
    exact ⟨e, cfg, h8, h5⟩
  have hpsF : ∀ q ∈ ps, ∃ e cfg, entries.get? q.1 = some e ∧ e.secret = some cfg := by
    intro q hq
    obtain ⟨e, cfg, pid, hmem, h5, _, _⟩ := collectGroups_ps_spec ph _ _ _ hcg q hq
    have h8 := (enumFrom_mem_get? entries 0 q.1 e hmem).2
    rw [Nat.sub_zero] at h8
    exact ⟨e, cfg, h8, h5⟩
  have hsm_same : ∀ q ∈ sm, ∀ r ∈ sm, q.1 = r.1 → q.2 = r.2 := by
    intro q hq r hr hj
    obtain ⟨e, cfg, pid, hmem, h5, h6, h7⟩ := collectGroups_sm_spec ph _ _ _ hcg q hq
    obtain ⟨e2, cfg2, pid2, hmem2, g5, g6, g7⟩ := collectGroups_sm_spec ph _ _ _ hcg r hr
    rw [← hj] at hmem2
    obtain rfl := enumFrom_mem_unique entries 0 q.1 e e2 hmem hmem2
    rw [h5] at g5
    obtain rfl := Option.some.inj g5
    rw [h6] at g6
    obtain rfl := SecretProviderConfig.AwsSm.inj g6
    rw [h7] at g7
    exact Except.ok.inj g7
  have hps_same : ∀ q ∈ ps, ∀ r ∈ ps, q.1 = r.1 → q.2 = r.2 := by
    intro q hq r hr hj
    obtain ⟨e, cfg, pid, hmem, h5, h6, h7⟩ := collectGroups_ps_spec ph _ _ _ hcg q hq
    obtain ⟨e2, cfg2, pid2, hmem2, g5, g6, g7⟩ := collectGroups_ps_spec ph _ _ _ hcg r hr
    rw [← hj] at hmem2
    obtain rfl := enumFrom_mem_unique entries 0 q.1 e e2 hmem hmem2
    rw [h5] at g5
    obtain rfl := Option.some.inj g5
    rw [h6] at g6
    obtain rfl := SecretProviderConfig.AwsPs.inj g6
    rw [h7] at g7
    exact Except.ok.inj g7
  have hdisj : ∀ q ∈ sm, ∀ r ∈ ps, q.1 ≠ r.1 := by
    intro q hq r hr he
    obtain ⟨e, cfg, pid, hmem, h5, h6, _⟩ := collectGroups_sm_spec ph _ _ _ hcg q hq
    obtain ⟨e2, cfg2, pid2, hmem2, g5, g6, _⟩ := collectGroups_ps_spec ph _ _ _ hcg r hr
    rw [← he] at hmem2
    obtain rfl := enumFrom_mem_unique entries 0 q.1 e e2 hmem hmem2
    rw [h5] at g5
    obtain rfl := Option.some.inj g5
    rw [h6] at g6
    exact SecretProviderConfig.noConfusion g6
  have hfe := fetchPhase_okProvider entries ph smStore psStore sm ps hcg
  constructor
  · intro hor
    by_cases hsmM : groupHasMissing entries sm smStore
    · obtain ⟨id, herr, hw⟩ := groupStep_err entries sm smStore hsmF hsmM
      refine ⟨id, ?_, Or.inl hw⟩
      have hfetchE : fetchPhase entries ph (okProvider smStore) (okProvider psStore)
          = .error (.ParameterNotFound id) := by
        rw [hfe, herr]
      rw [process_entries, hfetchE]
    · have hpsM : groupHasMissing entries ps psStore := hor.resolve_left hsmM
      obtain ⟨es1, hok1, hsp1, _, _⟩ := groupStep_ok entries sm smStore hsmF hsm_same hsmM
      have hpsF1 : ∀ q ∈ ps, ∃ e cfg, es1.get? q.1 = some e ∧ e.secret = some cfg := by
        intro q hq
        obtain ⟨e, cfg, hg, hs⟩ := hpsF q hq
        obtain ⟨e2, hg2, hs2⟩ := hasSecretAt_of_samePos hsp1 q.1 e cfg hg hs
        exact ⟨e2, cfg, hg2, hs2⟩
      have hpsM1 : groupHasMissing es1 ps psStore := by
        obtain ⟨p, hp, hst, hreq⟩ := hpsM
        exact ⟨p, hp, hst, (requiredAt_of_samePos hsp1 p.1).mpr hreq⟩
      obtain ⟨id, herr, hw⟩ := groupStep_err es1 ps psStore hpsF1 hpsM1
      have hfetchE : fetchPhase entries ph (okProvider smStore) (okProvider psStore)
          = .error (.ParameterNotFound id) := by
        rw [hfe, hok1]
        exact herr
      refine ⟨id, ?_, Or.inr ?_⟩
      · rw [process_entries, hfetchE]
      · obtain ⟨q, hq, h1, h2, h3⟩ := hw
        exact ⟨q, hq, h1, h2, (requiredAt_of_samePos hsp1 q.1).mp h3⟩
  · intro hnm1 hnm2
    obtain ⟨es1, hok1, hsp1, hu11, hu12⟩ := groupStep_ok entries sm smStore hsmF hsm_same hnm1
    have hpsF1 : ∀ q ∈ ps, ∃ e cfg, es1.get? q.1 = some e ∧ e.secret = some cfg := by
      intro q hq
      obtain ⟨e, cfg, hg, hs⟩ := hpsF q hq
      obtain ⟨e2, hg2, hs2⟩ := hasSecretAt_of_samePos hsp1 q.1 e cfg hg hs
      exact ⟨e2, cfg, hg2, hs2⟩
    have hnm2b : ¬ groupHasMissing es1 ps psStore := by
      intro hm
      obtain ⟨p, hp, hst, hreq⟩ := hm
      exact hnm2 ⟨p, hp, hst, (requiredAt_of_samePos hsp1 p.1).mp hreq⟩
    obtain ⟨es2, hok2, hsp2, hu21, hu22⟩ := groupStep_ok es1 ps psStore hpsF1 hps_same hnm2b
    have hfetchE : fetchPhase entries ph (okProvider smStore) (okProvider psStore)
        = .ok es2 := by
      rw [hfe, hok1]
      exact hok2
    refine ⟨es2, hfetchE, ?_, ?_, ?_⟩
    · rw [process_entries, hfetchE]
    · intro q hq hst
      have hq1 : ∀ r ∈ ps, r.1 ≠ q.1 := fun r hr he => hdisj q hq r hr he.symm
      rw [hu22 q.1 hq1, hu11 q hq hst]
    · intro q hq hst
      rw [hu21 q hq hst]
      exact hu12 q.1 (fun r hr he => hdisj r hr q hq he)

/-- A two-entry scenario: a required Secrets Manager directive and an
optional Parameter Store directive. -/
def entriesW : List EnvEntry :=
  [ { key := "K1", value := some "d1", secret := some ⟨true, .AwsSm "s1"⟩ },
    { key := "K2", value := some "d2", secret := some ⟨false, .AwsPs "p1"⟩ } ]

/-- Witness for `C1_required_absent_fails_optional_defaults`: with an empty
backend, resolving `entriesW` fails with `ParameterNotFound` naming a
required absent identifier. -/
theorem C1_witness :
    ∃ id, process_entries entriesW [] (fun _ => none)
        (okProvider (fun _ => none)) (okProvider (fun _ => none))
        = .error (.ParameterNotFound id)
      ∧ ((∃ q ∈ [((0 : Nat), "s1")], q.2 = id
            ∧ (fun _ => (none : Option String)) id = none ∧ requiredAt entriesW q.1)
        ∨ (∃ q ∈ [((1 : Nat), "p1")], q.2 = id
            ∧ (fun _ => (none : Option String)) id = none ∧ requiredAt entriesW q.1)) :=
  (C1_required_absent_fails_optional_defaults entriesW [] (fun _ => none)
      (fun _ => none) (fun _ => none) [(0, "s1")] [(1, "p1")] (by decide)).1
    (Or.inl ⟨(0, "s1"), List.mem_singleton.mpr rfl, rfl,
      ⟨{ key := "K1", value := some "d1", secret := some ⟨true, .AwsSm "s1"⟩ },
        ⟨true, .AwsSm "s1"⟩, rfl, rfl, rfl⟩⟩)

/-! ### C8: overrides applied last -/

theorem imExtend_lookup_mem (ov : List (String × α)) :
    (ov.map (fun p => p.1)).Nodup → ∀ (k : String) (v : α), (k, v) ∈ ov →
    ∀ m, List.lookup k (imExtend m ov) = some v := by
  induction ov with
  | nil =>
      intro _ k v hmem
      cases hmem
  | cons p ov2 ih =>
      intro hnd k v hmem m
      simp only [List.map_cons, List.nodup_cons] at hnd
      rcases List.mem_cons.mp hmem with he | hm
      · subst he
        rw [show imExtend m ((k, v) :: ov2) = imExtend (imInsert m k v) ov2 from rfl,
          imExtend_lookup_notmem ov2 k (by simpa using hnd.1), imInsert_lookup_self]
      · have hk : k ≠ p.1 := by
          intro he2
          exact hnd.1 (he2 ▸ List.mem_map.mpr ⟨(k, v), hm, rfl⟩)
        rw [show imExtend m (p :: ov2) = imExtend (imInsert m p.1 p.2) ov2 from rfl]
        exact ih hnd.2 k v hm (imInsert m p.1 p.2)

/-- C8: overrides are applied last and verbatim: (1) `process_entries` with
overrides equals the override-free run post-composed with `imExtend` — so
overrides influence neither placeholder expansion nor the provider calls and
are never expanded themselves; (2) every override pair wins: its value is the
final value of its key; (3) keys already present keep their original
position, new override keys are appended in override-iteration order. -/
theorem C8_overrides_apply_last (entries : List EnvEntry)
    (ov : List (String × String)) (ph : String → Option String)
    (smProvide psProvide : List String → Except Error (List (Option String))) :
    process_entries entries ov ph smProvide psProvide
        = Except.map (fun r => imExtend r ov)
            (process_entries entries [] ph smProvide psProvide)
  ∧ (∀ (r : List (String × String)) (k v : String),
      (ov.map (fun p => p.1)).Nodup → (k, v) ∈ ov →
      List.lookup k (imExtend r ov) = some v)
  ∧ (∀ (r : List (String × String)),
      (ov.map (fun p => p.1)).Nodup →
      (imExtend r ov).map (fun p => p.1)
        = r.map (fun p => p.1)
          ++ (ov.map (fun p => p.1)).filter
              (fun k => !((r.map (fun p => p.1)).contains k))) := by
  refine ⟨?_, fun r k v hnd hmem => imExtend_lookup_mem ov hnd k v hmem r,
    fun r hnd => imExtend_keys ov hnd r⟩
  rw [process_entries, process_entries]
  cases fetchPhase entries ph smProvide psProvide with
  | error er => rfl
  | ok es => simp [Except.map, imExtend_nil]

/-- Witness for `C8_overrides_apply_last` at a one-entry list with two
overrides, one replacing an existing key and one new. -/
theorem C8_witness :
    (process_entries [⟨"A", some "x", none⟩] [("A", "o"), ("B", "w")]
        (fun _ => none) (okProvider (fun _ => none)) (okProvider (fun _ => none))
      = Except.map (fun r => imExtend r [("A", "o"), ("B", "w")])
          (process_entries [⟨"A", some "x", none⟩] [] (fun _ => none)
            (okProvider (fun _ => none)) (okProvider (fun _ => none))))
    ∧ List.lookup "A" (imExtend [("A", "x")] [("A", "o"), ("B", "w")]) = some "o"
    ∧ (imExtend [("A", "x")] [("A", "o"), ("B", "w")]).map (fun p => p.1)
        = [("A", "x")].map (fun p => p.1)
          ++ ([("A", "o"), ("B", "w")].map (fun p => p.1)).filter
              (fun k => !(([("A", "x")].map (fun p => p.1)).contains k)) :=
  ⟨(C8_overrides_apply_last [⟨"A", some "x", none⟩] [("A", "o"), ("B", "w")]
      (fun _ => none) (okProvider (fun _ => none)) (okProvider (fun _ => none))).1,
   (C8_overrides_apply_last [⟨"A", some "x", none⟩] [("A", "o"), ("B", "w")]
      (fun _ => none) (okProvider (fun _ => none)) (okProvider (fun _ => none))).2.1
      [("A", "x")] "A" "o" (by decide) (by decide),
   (C8_overrides_apply_last [⟨"A", some "x", none⟩] [("A", "o"), ("B", "w")]
      (fun _ => none) (okProvider (fun _ => none)) (okProvider (fun _ => none))).2.2
      [("A", "x")] (by decide)⟩

/-! ### Providers (src/providers.rs) -/

/-- First-occurrence deduplication relative to already-seen identifiers. -/
def dedupNew (seen : List String) : List String → List String
  | [] => []
  | k :: r => if seen.contains k then dedupNew seen r else k :: dedupNew (seen ++ [k]) r

/-- The distinct identifiers of a request.  (The Rust providers dedup through
a `HashSet`, whose iteration order is unspecified; this embedding fixes
first-occurrence order — every property verified about it is
order-insensitive.) -/
def dedupFirst (ids : List String) : List String := dedupNew [] ids

/-- Accumulating splitter behind `chunksOf`: `acc` holds the current chunk
reversed, `k` the remaining capacity of the current chunk. -/
def chunksGo (n : Nat) : List α → List α → Nat → List (List α)
  | [], acc, _ => [acc.reverse]
  | x :: r, acc, 0 => acc.reverse :: chunksGo n r [x] (n - 1)
  | x :: r, acc, k + 1 => chunksGo n r (x :: acc) k

/-- `itertools::chunks(n)`: consecutive chunks of `n` elements, the last
possibly shorter; an empty input yields no chunks. -/
def chunksOf (n : Nat) : List α → List (List α)
  | [] => []
  | x :: r => chunksGo n r [x] (n - 1)

/-- The batches issued by `SecretsManagerProvider::provide_secrets`: the
deduplicated identifiers in chunks of 20. -/
def smBatches (ids : List String) : List (List String) :=
  chunksOf 20 (dedupFirst ids)

/-- The batches issued by `ParameterStoreProvider::provide_secrets` (and its
`try_provide_secrets` wrapper): the deduplicated identifiers in chunks of 20
— the source uses `chunks(20)` for the parameter store as well. -/
def psBatches (ids : List String) : List (List String) :=
  chunksOf 20 (dedupFirst ids)

/-- The chunk loop of `SecretsManagerProvider::provide_secrets` over a
backend modelled by `store`: `BatchGetSecretValue` reports absent
identifiers in `errors` and present ones in `secret_values`; any error entry
aborts with an API error, otherwise the values extend the key map. -/
def smFetchChunks (store : String → Option String) :
    List (List String) → Except Error (List (String × String))
  | [] => .ok []
  | c :: rest =>
    match c.filter (fun id => (store id).isNone) with
    | bad :: _ => .error (.AwsSmApiError bad)
    | [] =>
      match smFetchChunks store rest with
      | .error er => .error er
      | .ok km => .ok (c.filterMap (fun id => (store id).map (fun v => (id, v))) ++ km)

/-- The chunk loop of `ParameterStoreProvider::provide_secrets`: a non-empty
`invalid_parameters` list aborts with `ParameterNotFound` naming its first
element, otherwise the fetched parameters extend the key map. -/
def psFetchChunks (store : String → Option String) :
    List (List String) → Except Error (List (String × String))
  | [] => .ok []
  | c :: rest =>
    match c.filter (fun id => (store id).isNone) with
    | invalid :: _ => .error (.ParameterNotFound invalid)
    | [] =>
      match psFetchChunks store rest with
      | .error er => .error er
      | .ok km => .ok (c.filterMap (fun id => (store id).map (fun v => (id, v))) ++ km)

/-- The final positional map-back of both providers:
`ids.into_iter().map(|s| key_map.get(&s).expect(..))`, the `expect` panic
modelled as `Panic`. -/
def lookupAll (km : List (String × String)) : List String → Except Error (List String)
  | [] => .ok []
  | s :: r =>
    match km.lookup s with
    | none => .error (.Panic "should have a result at this point")
    | some v =>
      match lookupAll km r with
      | .error er => .error er
      | .ok vs => .ok (v :: vs)

/-- Embeds `SecretsManagerProvider::provide_secrets` from src/providers.rs. -/
def smProvideSecrets (store : String → Option String) (ids : List String) :
    Except Error (List String) :=
  match smFetchChunks store (smBatches ids) with
  | .error er => .error er
  | .ok km => lookupAll km ids

/-- Embeds `ParameterStoreProvider::provide_secrets` from src/providers.rs. -/
def psProvideSecrets (store : String → Option String) (ids : List String) :
    Except Error (List String) :=
  match psFetchChunks store (psBatches ids) with
  | .error er => .error er
  | .ok km => lookupAll km ids

/-- Modelled from the spec: `ParameterStoreProvider::try_provide_secrets` —
the provider method `process_entries` calls (src/lib.rs line 68) — is not
under src/; providers.rs holds an earlier `provide_secrets` returning
`Vec<String>`, which cannot be the callee because the call site matches
per-identifier `Option`s.  Spec §6: the parameter-store backend returns an
"invalid/unknown parameter" list per call that "must be translated into
absent results for affected identifiers only, other identifiers in the same
batch still resolving".  One chunk's contribution to the identifier table:
fetched parameters as present values, invalid ones as absent. -/
def psTryChunk (store : String → Option String) (c : List String) :
    List (String × Option String) :=
  let invalid := c.filter (fun id => (store id).isNone)
  let params := c.filterMap (fun id => (store id).map (fun v => (id, v)))
  params.map (fun p => (p.1, some p.2)) ++ invalid.map (fun id => (id, none))

/-- Modelled from the spec (see `psTryChunk`): `try_provide_secrets` for the
parameter store — batch the deduplicated identifiers as in
src/providers.rs, build the per-identifier table with invalid parameters
translated to absent, and answer the request positionally. -/
def psTryProvideSecrets (store : String → Option String) (ids : List String) :
    Except Error (List (Option String)) :=
  let table := (psBatches ids).foldl (fun km c => km ++ psTryChunk store c) []
  .ok (ids.map (fun id => (table.lookup id).join))

/-! ### C2: invalid parameters become absent results -/

theorem chunksGo_join (n : Nat) :
    ∀ (r acc : List α) (k : Nat), (chunksGo n r acc k).join = acc.reverse ++ r := by
  intro r
  induction r with
  | nil => intro acc k; simp [chunksGo]
  | cons x r2 ih =>
      intro acc k
      cases k with
      | zero => simp [chunksGo, ih]
      | succ k2 => simp [chunksGo, ih]

theorem chunksOf_join (n : Nat) (l : List α) : (chunksOf n l).join = l := by
  cases l with
  | nil => rfl
  | cons x r => simp [chunksOf, chunksGo_join]

theorem mem_dedupNew (k : String) :
    ∀ (l seen : List String), k ∈ l → seen.contains k = false → k ∈ dedupNew seen l := by
  intro l
  induction l with
  | nil => intro seen h _; cases h
  | cons x l2 ih =>
      intro seen hmem hseen
      rw [dedupNew]
      by_cases hkx : k = x
      · subst hkx
        rw [if_neg (by rw [hseen]; simp)]
        exact List.mem_cons_self _ _
      · have hm : k ∈ l2 := by
          rcases List.mem_cons.mp hmem with he | hm
          · exact absurd he hkx
          · exact hm
      
        by_cases hc : seen.contains x = true
        · rw [if_pos hc]
          exact ih seen hm hseen
        · rw [if_neg hc]
          refine List.mem_cons_of_mem _ (ih (seen ++ [x]) hm ?_)
          cases hfin : (seen ++ [x]).contains k with
          | false => rfl
          | true =>
              rcases List.mem_append.mp (List.elem_iff.mp hfin) with h1 | h1
              · have h2 : k ∉ seen := by simpa using hseen
                exact absurd h1 h2
              · exact absurd (List.mem_singleton.mp h1) hkx

theorem mem_dedupFirst (k : String) (l : List String) (h : k ∈ l) :
    k ∈ dedupFirst l :=
  mem_dedupNew k l [] h rfl

theorem lookup_mem (l : List (String × α)) (k : String) (v : α)
    (h : List.lookup k l = some v) : (k, v) ∈ l := by
  induction l with
  | nil => cases h
  | cons p l2 ih =>
      rw [lookup_cons_eq_if] at h
      by_cases hk : k = p.1
      · rw [if_pos hk] at h
        obtain rfl := Option.some.inj h
        exact List.mem_cons.mpr (Or.inl (by rw [hk]))
      · rw [if_neg hk] at h
        exact List.mem_cons_of_mem _ (ih h)

theorem lookup_exists (l : List (String × α)) (k : String)
    (h : ∃ x, (k, x) ∈ l) : ∃ y, List.lookup k l = some y := by
  induction l with
  | nil => obtain ⟨x, hx⟩ := h; cases hx
  | cons p l2 ih =>
      rw [lookup_cons_eq_if]
      by_cases hk : k = p.1
      · exact ⟨p.2, by rw [if_pos hk]⟩
      · rw [if_neg hk]
        refine ih ?_
        obtain ⟨x, hx⟩ := h
        rcases List.mem_cons.mp hx with he | hm
        · exact absurd (congrArg Prod.fst he) hk
        · exact ⟨x, hm⟩

theorem psTryFold_mono (store : String → Option String) (bs : List (List String)) :
    ∀ (km : List (String × Option String)) q, q ∈ km →
      q ∈ bs.foldl (fun km c => km ++ psTryChunk store c) km := by
  induction bs with
  | nil => intro km q h; exact h
  | cons c bs2 ih =>
      intro km q h
      exact ih (km ++ psTryChunk store c) q (List.mem_append_left _ h)

theorem mem_psTryChunk (store : String → Option String) (c : List String)
    (id : String) (hid : id ∈ c) : (id, store id) ∈ psTryChunk store c := by
  rw [psTryChunk]
  cases hst : store id with
  | some v =>
      refine List.mem_append_left _ (List.mem_map.mpr ⟨(id, v), ?_, by simp⟩)
      exact List.mem_filterMap.mpr ⟨id, hid, by rw [hst]; rfl⟩
  | none =>
      refine List.mem_append_right _ (List.mem_map.mpr ⟨id, ?_, rfl⟩)
      exact List.mem_filter.mpr ⟨hid, by simp [hst]⟩

theorem psTryTable_cover (store : String → Option String) :
    ∀ (bs : List (List String)) (km : List (String × Option String)) (id : String),
      id ∈ bs.join →
      ∃ x, (id, x) ∈ bs.foldl (fun km c => km ++ psTryChunk store c) km := by
  intro bs
  induction bs with
  | nil => intro km id hid; simp at hid
  | cons c bs2 ih =>
      intro km id hid
      rcases List.mem_append.mp (show id ∈ c ++ bs2.join from hid) with h1 | h1
      · exact ⟨store id, psTryFold_mono store bs2 _ _
          (List.mem_append_right _ (mem_psTryChunk store c id h1))⟩
      · exact ih (km ++ psTryChunk store c) id h1

theorem psTryTable_spec (store : String → Option String) :
    ∀ (bs : List (List String)) (km : List (String × Option String)),
      (∀ p ∈ km, store p.1 = p.2) →
      ∀ p ∈ bs.foldl (fun km c => km ++ psTryChunk store c) km, store p.1 = p.2 := by
  intro bs
  induction bs with
  | nil => intro km h p hp; exact h p hp
  | cons c bs2 ih =>
      intro km h p hp
      refine ih (km ++ psTryChunk store c) ?_ p hp
      intro q hq
      rcases List.mem_append.mp hq with h1 | h1
      · exact h q h1
      · have h1b : q ∈ (c.filterMap (fun id => (store id).map (fun v => (id, v)))).map
              (fun p => (p.1, some p.2))
            ++ (c.filter (fun id => (store id).isNone)).map (fun id => (id, none)) := h1
        rcases List.mem_append.mp h1b with h2 | h2
        · obtain ⟨r, hr, rfl⟩ := List.mem_map.mp h2
          obtain ⟨id2, hid2, hmap⟩ := List.mem_filterMap.mp hr
          cases hst : store id2 with
          | none => rw [hst] at hmap; cases hmap
          | some v =>
              rw [hst] at hmap
              obtain rfl := Option.some.inj hmap
              simpa using hst
        · obtain ⟨id2, hid2, rfl⟩ := List.mem_map.mp h2
          have h3 := (List.mem_filter.mp hid2).2
          simpa [Option.isNone_iff_eq_none] using h3

/-- C2: the spec-modelled `try_provide_secrets` for the parameter store
answers every request with `.ok`, mapping each identifier in the batch
response positionally: identifiers on the invalid/unknown-parameter list
become absent (`none`), all other identifiers of the same batches resolve to
their fetched values — the invalid list never aborts the resolution. -/
theorem C2_invalid_params_become_absent (store : String → Option String)
    (ids : List String) :
    psTryProvideSecrets store ids = .ok (ids.map store) := by
  simp only [psTryProvideSecrets]
  congr 1
  refine List.map_congr_left ?_
  intro id hid
  have hidm : id ∈ (psBatches ids).join := by
    rw [show psBatches ids = chunksOf 20 (dedupFirst ids) from rfl, chunksOf_join]
    exact mem_dedupFirst id ids hid
  obtain ⟨x, hx⟩ := psTryTable_cover store (psBatches ids) [] id hidm
  obtain ⟨y, hy⟩ := lookup_exists _ id ⟨x, hx⟩
  have hxy : store id = y :=
    psTryTable_spec store (psBatches ids) [] (fun p hp => absurd hp (List.not_mem_nil p))
      (id, y) (lookup_mem _ _ _ hy)
  rw [hy, ← hxy]
  rfl

/-! ### C6: parameter-store batch size -/

/-- Eleven distinct parameter-store identifiers. -/
def elevenIds : List String :=
  ["p01", "p02", "p03", "p04", "p05", "p06", "p07", "p08", "p09", "p10", "p11"]

/-- C6 failing-input evaluation: for 11 distinct identifiers the parameter
store provider issues a single `GetParameters` batch of 11 identifiers —
`chunks(20)` in src/providers.rs — exceeding the backend's per-call limit of
10 names (the bulk-store chunking honors its own larger limit of 20). -/
theorem C6_ps_batch_exceeds_limit :
    psBatches elevenIds = [elevenIds]
      ∧ 10 < elevenIds.length
      ∧ (smBatches elevenIds).all (fun b => b.length ≤ 20) = true := by
  refine ⟨by decide, by decide, by decide⟩

/-! ### Declaration grammar

The pest grammar file `env.pest` referenced by `#[grammar = "env.pest"]` in
src/parser.rs is not under src/, so the lexing layer below is modelled from
the spec (§4.1): line classes, directive comments `# @aws-sm <pattern>
[@optional]` / `# @aws-ps ...`, declarations `[export ]key[=|:]value` with
raw or quoted values and trailing comments, and directive attachment to the
next declaration (plain comments and blank lines do not break the
attachment).  Everything after the lexed declarations — unescaping, raw-value
trimming, empty-value handling, the IndexMap duplicate-key loop — follows
src/parser.rs. -/

/-- ASCII whitespace as trimmed by the grammar and by Rust `str::trim` (the
repository only relies on spaces and tabs; `\r` covers CRLF input). -/
def isSpaceChar (c : Char) : Bool := c = ' ' || c = '\t' || c = '\r'

def trimChars (l : List Char) : List Char :=
  ((l.dropWhile isSpaceChar).reverse.dropWhile isSpaceChar).reverse

def splitLines : List Char → List (List Char)
  | [] => [[]]
  | c :: rest =>
    if c = '\n' then [] :: splitLines rest
    else
      match splitLines rest with
      | [] => [[c]]
      | l :: ls => (c :: l) :: ls

def splitOnSp : List Char → List (List Char)
  | [] => [[]]
  | c :: rest =>
    if isSpaceChar c then [] :: splitOnSp rest
    else
      match splitOnSp rest with
      | [] => [[c]]
      | l :: ls => (c :: l) :: ls

/-- Whitespace-separated words of a directive comment body. -/
def splitWords (l : List Char) : List (List Char) :=
  (splitOnSp l).filter (fun w => w ≠ [])

/-- How a value was written; drives the unescaping in `toEntry`. -/
inductive ValueRule where
  | raw
  | dquote
  | squote
  | tick
deriving DecidableEq, Repr

def tickChar : Char := Char.ofNat 96

def squoteChar : Char := Char.ofNat 39

/-- Scan a quoted value: consume until the unescaped closing delimiter.  An
escape pair backslash-delimiter is captured verbatim (src/parser.rs performs
the unescape on the captured slice); returns the inside and the remainder
after the closing delimiter, or an error for an unterminated value. -/
def scanQuoted (d : Char) : List Char → Except String (List Char × List Char)
  | [] => .error "unterminated quoted value"
  | c :: rest =>
    if c = d then .ok ([], rest)
    else if c = '\\' then
      match rest with
      | [] => .error "unterminated quoted value"
      | c2 :: rest2 =>
        if c2 = d then
          match scanQuoted d rest2 with
          | .error e => .error e
          | .ok (inside, rem) => .ok ('\\' :: c2 :: inside, rem)
        else
          match scanQuoted d (c2 :: rest2) with
          | .error e => .error e
          | .ok (inside, rem) => .ok ('\\' :: inside, rem)
    else
      match scanQuoted d rest with
      | .error e => .error e
      | .ok (inside, rem) => .ok (c :: inside, rem)

/-- After a closing quote only whitespace and an optional trailing `#`
comment may follow. -/
def checkAfterValue (rem : List Char) : Bool :=
  match rem.dropWhile isSpaceChar with
  | [] => true
  | c :: _ => c = '#'

/-- Lex the text after the separator: an optionally quoted value, or a raw
value running to the line end or an unescaped `#` (trailing comment).  The
captured slice is returned raw; `toEntry` applies the src/parser.rs
processing. -/
def lexValue (s : List Char) : Except String (ValueRule × List Char) :=
  match s.dropWhile isSpaceChar with
  | [] => .ok (.raw, [])
  | c :: rest =>
    if c = '"' then
      match scanQuoted '"' rest with
      | .error e => .error e
      | .ok (inside, rem) =>
        if checkAfterValue rem then .ok (.dquote, inside)
        else .error "unexpected characters after quoted value"
    else if c = squoteChar then
      match scanQuoted squoteChar rest with
      | .error e => .error e
      | .ok (inside, rem) =>
        if checkAfterValue rem then .ok (.squote, inside)
        else .error "unexpected characters after quoted value"
    else if c = tickChar then
      match scanQuoted tickChar rest with
      | .error e => .error e
      | .ok (inside, rem) =>
        if checkAfterValue rem then .ok (.tick, inside)
        else .error "unexpected characters after quoted value"
    else
      .ok (.raw, (c :: rest).takeWhile (fun c2 => c2 ≠ '#'))

/-- Keys are identifier-like: letters, digits, underscore. -/
def isKeyChar (c : Char) : Bool := isWordChar c

/-- Split a declaration line at its first `=` or `:` separator. -/
def splitSep : List Char → Option (List Char × List Char)
  | [] => none
  | c :: rest =>
    if c = '=' ∨ c = ':' then some ([], rest)
    else
      match splitSep rest with
      | none => none
      | some (a, b) => some (c :: a, b)

/-- Drop a leading `export ` keyword (only when followed by whitespace). -/
def stripExport (l : List Char) : List Char :=
  if "export".toList.isPrefixOf l then
    match l.drop 6 with
    | c :: rest2 => if isSpaceChar c then (c :: rest2).dropWhile isSpaceChar else l
    | [] => l
  else l

/-- Lex one declaration line (already known not to be blank or a comment). -/
def lexDeclLine (l : List Char) : Except String (String × ValueRule × String) :=
  match splitSep l with
  | none => .error "line is neither a comment nor a declaration"
  | some (before, after) =>
    let key := stripExport (trimChars before)
    if key ≠ [] ∧ key.all isKeyChar then
      match lexValue after with
      | .error e => .error e
      | .ok (rule, raw) => .ok (String.mk key, rule, String.mk raw)
    else .error "invalid key"

/-- One lexed declaration: key, value shape, raw captured value slice, and
the directive comment attached to it (if any). -/
structure RawDecl where
  key : String
  rule : ValueRule
  rawValue : String
  secret : Option SecretConfig
deriving DecidableEq, Repr

/-- Classification of one source line. -/
inductive LineKind where
  | blank
  | comment
  | directive (cfg : SecretConfig)
  | decl (key : String) (rule : ValueRule) (rawValue : String)
deriving DecidableEq, Repr

def classifyLine (l : List Char) : Except String LineKind :=
  match trimChars l with
  | [] => .ok .blank
  | c :: rest =>
    if c = '#' then
      match (splitWords rest).map String.mk with
      | ["@aws-sm", pat] => .ok (.directive ⟨true, .AwsSm pat⟩)
      | ["@aws-sm", pat, "@optional"] => .ok (.directive ⟨false, .AwsSm pat⟩)
      | ["@aws-ps", pat] => .ok (.directive ⟨true, .AwsPs pat⟩)
      | ["@aws-ps", pat, "@optional"] => .ok (.directive ⟨false, .AwsPs pat⟩)
      | _ => .ok .comment
    else
      match lexDeclLine (trimChars l) with
      | .error e => .error e
      | .ok (k, rule, raw) => .ok (.decl k rule raw)

/-- Walk the lines carrying the pending directive: blank lines and plain
comments keep it, a directive comment replaces it, a declaration consumes
it. -/
def lexLinesGo : Option SecretConfig → List (List Char) → Except Error (List RawDecl)
  | _, [] => .ok []
  | pending, l :: rest =>
    match classifyLine l with
    | .error msg => .error (.ParsingError msg)
    | .ok .blank => lexLinesGo pending rest
    | .ok .comment => lexLinesGo pending rest
    | .ok (.directive cfg) => lexLinesGo (some cfg) rest
    | .ok (.decl k rule raw) =>
      match lexLinesGo none rest with
      | .error er => .error er
      | .ok ds => .ok (⟨k, rule, raw, pending⟩ :: ds)

/-- The grammar pass: split into lines and lex. -/
def lexEntries (input : String) : Except Error (List RawDecl) :=
  lexLinesGo none (splitLines input.toList)

/-- Rust `raw.replace("\\<d>", "<d>")` — rewrite each backslash-delimiter
pair to the bare delimiter, left to right. -/
def unescapeDelim (d : Char) : List Char → List Char
  | [] => []
  | [c] => [c]
  | c :: c2 :: rest2 =>
    if c = '\\' ∧ c2 = d then c2 :: unescapeDelim d rest2
    else c :: unescapeDelim d (c2 :: rest2)

/-- The per-declaration value processing of `parse` (src/parser.rs lines
101-124): quoted rules unescape their delimiter, the raw rule is trimmed,
an empty value yields no default.  (The Rust `contains` guard before
`replace` only avoids an allocation.) -/
def toEntry (d : RawDecl) : EnvEntry :=
  let v : List Char :=
    match d.rule with
    | .dquote => unescapeDelim '"' d.rawValue.toList
    | .squote => unescapeDelim squoteChar d.rawValue.toList
    | .tick => unescapeDelim tickChar d.rawValue.toList
    | .raw => trimChars d.rawValue.toList
  { key := d.key
    value := if v = [] then none else some (String.mk v)
    secret := d.secret }

/-- The IndexMap insert loop of `parse` (src/parser.rs lines 156-173). -/
def buildEntries (ds : List RawDecl) : List (String × EnvEntry) :=
  ds.foldl (fun m d => imInsert m d.key (toEntry d)) []

def dupWarnAux (seen : List String) : List RawDecl → List String
  | [] => []
  | d :: r =>
    if seen.contains d.key then d.key :: dupWarnAux (seen ++ [d.key]) r
    else dupWarnAux (seen ++ [d.key]) r

/-- The keys for which the insert loop emits the non-fatal
`Warning: Duplicate declaration` message (`entries.contains_key` was true at
insertion time). -/
def dupKeyWarnings (ds : List RawDecl) : List String := dupWarnAux [] ds

/-- Embeds `parse` from src/parser.rs: the grammar pass (spec-modelled, see
above), then the duplicate-key IndexMap loop and `into_values`. -/
def parse (input : String) : Except Error (List EnvEntry) :=
  match lexEntries input with
  | .error er => .error er
  | .ok ds => .ok ((buildEntries ds).map (fun p => p.2))

/-- Mirror of `test_parses_key_value`. -/
example : parse "KEY1=value1" = .ok [⟨"KEY1", some "value1", none⟩] := by decide

/-- Mirror of `test_parses_key_value_with_colon`. -/
example : parse "KEY1:value1" = .ok [⟨"KEY1", some "value1", none⟩] := by decide

/-- Mirror of `test_handles_export_before_key`. -/
example : parse "export KEY1=value1" = .ok [⟨"KEY1", some "value1", none⟩] := by
  decide

/-- Mirror of `test_parses_aws_sm_directive`. -/
example : parse "# @aws-sm foobar/123\nKEY1=value1"
    = .ok [⟨"KEY1", some "value1", some ⟨true, .AwsSm "foobar/123"⟩⟩] := by decide

/-- Mirror of `test_parses_optional_directive`. -/
example : parse "# @aws-ps foobar/123 @optional\nKEY1=value1"
    = .ok [⟨"KEY1", some "value1", some ⟨false, .AwsPs "foobar/123"⟩⟩] := by decide

/-- Mirror of `test_handles_spacing`. -/
example : parse "#    @aws-sm     foobar/123\nKEY1 =   value1"
    = .ok [⟨"KEY1", some "value1", some ⟨true, .AwsSm "foobar/123"⟩⟩] := by decide

/-- Mirror of `test_ignores_comments_after_directive`. -/
example : parse "# @aws-sm foobar/123\n# test\nKEY1=value1"
    = .ok [⟨"KEY1", some "value1", some ⟨true, .AwsSm "foobar/123"⟩⟩] := by decide

/-- Mirror of `test_handles_comments_at_the_end_of_values`. -/
example : parse "KEY1=value1 # test 123\nKEY2=\"value2\" # test 123"
    = .ok [⟨"KEY1", some "value1", none⟩, ⟨"KEY2", some "value2", none⟩] := by decide

/-- Mirror of `test_handles_escaped_delimiters` (double quotes). -/
example : parse "KEY1=\"val\\\"ue1\""
    = .ok [⟨"KEY1", some "val\"ue1", none⟩] := by decide

/-- Mirror of `test_does_not_allow_unescaped_dquote`. -/
example : ∃ msg, parse "KEY1=\"val\"ue1\"" = .error (.ParsingError msg) := by
  refine ⟨"unexpected characters after quoted value", ?_⟩
  decide

/-- Mirror of `test_handles_empty_values`. -/
example : parse "KEY1=value1\nKEY2="
    = .ok [⟨"KEY1", some "value1", none⟩, ⟨"KEY2", none, none⟩] := by decide

/-- Mirror of `test_overrides_duplicate_keys`. -/
example : parse "KEY1=value1\nKEY1=overridden"
    = .ok [⟨"KEY1", some "overridden", none⟩] := by decide

/-- Mirror of `test_preserves_spaces_in_quotes` (double quotes). -/
example : parse "KEY1=\"  val  ue  1  \""
    = .ok [⟨"KEY1", some "  val  ue  1  ", none⟩] := by decide

/-! ### C5: duplicate keys — last declaration wins, first-seen position -/

theorem getLast?_eq_none_imp (l : List α) (h : l.getLast? = none) : l = [] := by
  cases l with
  | nil => rfl
  | cons a l2 =>
      rw [getLast?_cons_getD] at h
      cases h

theorem buildFold_keys (ds : List RawDecl) :
    ∀ m : List (String × EnvEntry),
      (ds.foldl (fun m d => imInsert m d.key (toEntry d)) m).map (fun p => p.1)
        = m.map (fun p => p.1) ++ dedupNew (m.map (fun p => p.1)) (ds.map (fun d => d.key)) := by
  induction ds with
  | nil => intro m; simp [dedupNew]
  | cons d ds2 ih =>
      intro m
      rw [List.foldl_cons, ih, imInsert_keys, List.map_cons, dedupNew]
      by_cases hmem : d.key ∈ m.map (fun p => p.1)
      · rw [if_pos hmem, if_pos (List.elem_iff.mpr hmem)]
      · rw [if_neg hmem, if_neg (fun hc => hmem (List.elem_iff.mp hc))]
        rw [List.append_assoc, List.singleton_append]
  
theorem buildFold_lookup_none (ds : List RawDecl) (k : String)
    (h : ds.filter (fun d => d.key = k) = []) :
    ∀ m, List.lookup k (ds.foldl (fun m d => imInsert m d.key (toEntry d)) m)
      = List.lookup k m := by
  induction ds with
  | nil => intro m; rfl
  | cons d ds2 ih =>
      intro m
      by_cases hdk : d.key = k
      · rw [List.filter_cons_of_pos (by simp [hdk])] at h
        cases h
      · rw [List.filter_cons_of_neg (by simp [hdk])] at h
        rw [List.foldl_cons, ih h, imInsert_lookup_ne _ _ _ _ (fun he => hdk he.symm)]

theorem buildFold_lookup_last (ds : List RawDecl) (k : String) :
    ∀ dlast, (ds.filter (fun d => d.key = k)).getLast? = some dlast →
    ∀ m, List.lookup k (ds.foldl (fun m d => imInsert m d.key (toEntry d)) m)
      = some (toEntry dlast) := by
  induction ds with
  | nil => intro dlast h; cases h
  | cons d ds2 ih =>
      intro dlast h m
      by_cases hdk : d.key = k
      · rw [List.filter_cons_of_pos (by simp [hdk])] at h
        rw [getLast?_cons_getD] at h
        obtain h2 := Option.some.inj h
        cases hl : (ds2.filter (fun d => d.key = k)).getLast? with
        | some d2 =>
            rw [hl] at h2
            rw [List.foldl_cons]
            exact ih dlast (h2 ▸ hl) _
        | none =>
            rw [hl] at h2
            have hnil := getLast?_eq_none_imp _ hl
            rw [List.foldl_cons, buildFold_lookup_none ds2 k hnil,
              ← h2, ← hdk, imInsert_lookup_self]
            rfl
      · rw [List.filter_cons_of_neg (by simp [hdk])] at h
        rw [List.foldl_cons]
        exact ih dlast h _
  
theorem buildFold_snd_key (ds : List RawDecl) :
    ∀ m : List (String × EnvEntry), (∀ p ∈ m, p.2.key = p.1) →
      ∀ p ∈ ds.foldl (fun m d => imInsert m d.key (toEntry d)) m, p.2.key = p.1 := by
  induction ds with
  | nil => intro m h p hp; exact h p hp
  | cons d ds2 ih =>
      intro m h p hp
      rw [List.foldl_cons] at hp
      refine ih _ ?_ p hp
      intro q hq
      rw [imInsert] at hq
      by_cases ha : m.any (fun p => p.1 == d.key) = true
      · rw [if_pos ha] at hq
        obtain ⟨r, hr, he⟩ := List.mem_map.mp hq
        by_cases hrk : r.1 = d.key
        · rw [if_pos (by simp [hrk])] at he
          rw [← he]
          rfl
        · rw [if_neg (by simp [hrk])] at he
          rw [← he]
          exact h r hr
      · rw [if_neg ha] at hq
        rcases List.mem_append.mp hq with h1 | h1
        · exact h q h1
        · rw [List.mem_singleton.mp h1]
          rfl

theorem dedupNew_nodup_notmem (l : List String) :
    ∀ seen : List String, (dedupNew seen l).Nodup ∧ ∀ x ∈ dedupNew seen l, ¬ x ∈ seen := by
  induction l with
  | nil => intro seen; exact ⟨List.nodup_nil, fun x hx => absurd hx (List.not_mem_nil x)⟩
  | cons k l2 ih =>
      intro seen
      rw [dedupNew]
      by_cases hc : k ∈ seen
      · rw [if_pos (List.elem_iff.mpr hc)]
        exact ih seen
      · rw [if_neg (fun hcon => hc (List.elem_iff.mp hcon))]
        obtain ⟨hnd, hdisj⟩ := ih (seen ++ [k])
        refine ⟨List.nodup_cons.mpr ⟨?_, hnd⟩, ?_⟩
        · intro hk
          exact hdisj k hk (List.mem_append_right _ (List.mem_singleton.mpr rfl))
        · intro x hx
          rcases List.mem_cons.mp hx with rfl | hx2
          · exact hc
          · exact fun hxs => hdisj x hx2 (List.mem_append_left _ hxs)

theorem lookup_of_mem_nodup (l : List (String × α)) (k : String) (v : α)
    (hnd : (l.map (fun p => p.1)).Nodup) (hmem : (k, v) ∈ l) :
    List.lookup k l = some v := by
  induction l with
  | nil => cases hmem
  | cons p l2 ih =>
      simp only [List.map_cons, List.nodup_cons] at hnd
      rw [lookup_cons_eq_if]
      rcases List.mem_cons.mp hmem with he | hm
      · rw [← he]
        rw [if_pos rfl]
      · have hk : k ≠ p.1 := fun he2 =>
          hnd.1 (he2 ▸ List.mem_map.mpr ⟨(k, v), hm, rfl⟩)
        rw [if_neg hk]
        exact ih hnd.2 hm

theorem dupWarn_mem (k : String) :
    ∀ (ds : List RawDecl) (seen : List String),
      ((k ∈ seen ∧ 0 < (ds.filter (fun d => d.key = k)).length)
        ∨ 1 < (ds.filter (fun d => d.key = k)).length) →
      k ∈ dupWarnAux seen ds := by
  intro ds
  induction ds with
  | nil =>
      intro seen h
      rcases h with ⟨_, h2⟩ | h2 <;> simp at h2
  | cons d ds2 ih =>
      intro seen h
      rw [dupWarnAux]
      by_cases hdk : d.key = k
      · rw [List.filter_cons_of_pos (by simp [hdk])] at h
        by_cases hmem : k ∈ seen
        · rw [if_pos (by rw [hdk]; exact List.elem_iff.mpr hmem)]
          rw [hdk]
          exact List.mem_cons_self _ _
        · have h2 : 0 < (ds2.filter (fun d => d.key = k)).length := by
            rcases h with ⟨h1, _⟩ | h1
            · exact absurd h1 hmem
            · simpa using Nat.lt_of_succ_lt_succ h1
          have hrec := ih (seen ++ [d.key])
            (Or.inl ⟨by rw [hdk]; exact List.mem_append_right _ (List.mem_singleton.mpr rfl), h2⟩)
          by_cases hc : seen.contains d.key = true
          · rw [if_pos hc]
            exact List.mem_cons_of_mem _ hrec
          · rw [if_neg hc]
            exact hrec
      · rw [List.filter_cons_of_neg (by simp [hdk])] at h
        have hrec := ih (seen ++ [d.key]) (by
          rcases h with ⟨h1, h2⟩ | h2
          · exact Or.inl ⟨List.mem_append_left _ h1, h2⟩
          · exact Or.inr h2)
        by_cases hc : seen.contains d.key = true
        · rw [if_pos hc]
          exact List.mem_cons_of_mem _ hrec
        · rw [if_neg hc]
          exact hrec

/-- C5: when a key appears in several lexed declarations, `parse` still
succeeds; the output keys are the first-seen deduplication of the declared
keys (so the surviving entry sits at the key's first-seen position), keys
are unique, the one entry for the duplicated key is built from the *last*
declaration with that key (value and directive), and the key is on the
duplicate-warning list — a warning signal, never an error. -/
theorem C5_duplicate_keys_last_wins (input : String) (ds : List RawDecl) (k : String)
    (hlex : lexEntries input = .ok ds)
    (hdup : 1 < (ds.filter (fun d => d.key = k)).length) :
    ∃ es, parse input = .ok es
      ∧ es.map (fun e => e.key) = dedupFirst (ds.map (fun d => d.key))
      ∧ (es.map (fun e => e.key)).Nodup
      ∧ (∃ dlast, (ds.filter (fun d => d.key = k)).getLast? = some dlast
          ∧ toEntry dlast ∈ es
          ∧ ∀ e ∈ es, e.key = k → e = toEntry dlast)
      ∧ k ∈ dupKeyWarnings ds := by
  have hparse : parse input = .ok ((buildEntries ds).map (fun p => p.2)) := by
    rw [parse, hlex]
  have h1 : ∀ p ∈ buildEntries ds, p.2.key = p.1 :=
    buildFold_snd_key ds [] (fun p hp => absurd hp (List.not_mem_nil p))
  have hbkeys : (buildEntries ds).map (fun p => p.1) = dedupFirst (ds.map (fun d => d.key)) := by
    have h2 := buildFold_keys ds []
    simpa using h2
  have hkeys : ((buildEntries ds).map (fun p => p.2)).map (fun e => e.key)
      = dedupFirst (ds.map (fun d => d.key)) := by
    rw [List.map_map,
      show ((fun e : EnvEntry => e.key) ∘ fun p : String × EnvEntry => p.2)
        = fun p : String × EnvEntry => p.2.key from rfl,
      List.map_congr_left h1, hbkeys]
  have hbnodup : ((buildEntries ds).map (fun p => p.1)).Nodup := by
    rw [hbkeys]
    exact (dedupNew_nodup_notmem _ []).1
  obtain ⟨dlast, hl⟩ : ∃ dlast, (ds.filter (fun d => d.key = k)).getLast? = some dlast := by
    cases hl : (ds.filter (fun d => d.key = k)).getLast? with
    | none =>
        rw [getLast?_eq_none_imp _ hl] at hdup
        simp at hdup
    | some dl => exact ⟨dl, rfl⟩
  have hlook : List.lookup k (buildEntries ds) = some (toEntry dlast) :=
    buildFold_lookup_last ds k dlast hl []
  refine ⟨(buildEntries ds).map (fun p => p.2), hparse, hkeys,
    hkeys ▸ (dedupNew_nodup_notmem _ []).1,
    ⟨dlast, hl, List.mem_map.mpr ⟨(k, toEntry dlast), lookup_mem _ _ _ hlook, rfl⟩, ?_⟩,
    dupWarn_mem k ds [] (Or.inr hdup)⟩
  intro e he hek
  obtain ⟨p, hp, rfl⟩ := List.mem_map.mp he
  have hpk : p.1 = k := by rw [← h1 p hp, hek]
  have hlook2 : List.lookup k (buildEntries ds) = some p.2 := by
    refine lookup_of_mem_nodup _ _ _ hbnodup ?_
    rw [← hpk]
    exact hp
  rw [hlook] at hlook2
  exact (Option.some.inj hlook2).symm

/-- Witness for `C5_duplicate_keys_last_wins` at the input `A=1\nA=2`. -/
theorem C5_witness :
    ∃ es, parse "A=1\nA=2" = .ok es
      ∧ es.map (fun e => e.key)
          = dedupFirst (([⟨"A", .raw, "1", none⟩, ⟨"A", .raw, "2", none⟩] : List RawDecl).map
              (fun d => d.key))
      ∧ (es.map (fun e => e.key)).Nodup
      ∧ (∃ dlast, (([⟨"A", .raw, "1", none⟩, ⟨"A", .raw, "2", none⟩] : List RawDecl).filter
              (fun d => d.key = "A")).getLast? = some dlast
          ∧ toEntry dlast ∈ es
          ∧ ∀ e ∈ es, e.key = "A" → e = toEntry dlast)
      ∧ "A" ∈ dupKeyWarnings [⟨"A", .raw, "1", none⟩, ⟨"A", .raw, "2", none⟩] :=
  C5_duplicate_keys_last_wins "A=1\nA=2"
    [⟨"A", .raw, "1", none⟩, ⟨"A", .raw, "2", none⟩] "A" (by decide) (by decide)

/-! ### C7: present-valued entries, in order -/

/-- The keys of the present-valued pairs form a sublist of the entry keys,
so declaration order is preserved by the `filter_map`. -/
theorem pairsOf_keys_sublist (es : List EnvEntry) :
    ((pairsOf es).map (fun p => p.1)).Sublist (es.map (fun e => e.key)) := by
  induction es with
  | nil => exact List.Sublist.refl _
  | cons e r ih =>
      cases hv : e.value with
      | none =>
          have hp : pairsOf (e :: r) = pairsOf r := by simp [pairsOf, hv]
          rw [hp, List.map_cons]
          exact List.Sublist.cons _ ih
      | some v =>
          have hp : pairsOf (e :: r) = (e.key, v) :: pairsOf r := by
            simp [pairsOf, hv]
          rw [hp, List.map_cons, List.map_cons]
          exact List.Sublist.cons₂ _ ih

/-- When no key of `l` collides with `m` or with another key of `l`,
`imExtend` is plain concatenation. -/
theorem imExtend_nodup_append (m l : List (String × α))
    (hnd : ((m ++ l).map (fun p => p.1)).Nodup) : imExtend m l = m ++ l := by
  induction l generalizing m with
  | nil => simp [imExtend_nil]
  | cons p r ih =>
      have hnotin : p.1 ∉ m.map (fun q => q.1) := by
        rw [List.map_append] at hnd
        have hd := (List.nodup_append.mp hnd).2.2
        intro hin
        exact hd hin (by simp)
      have hany : m.any (fun q => q.1 == p.1) = false := by
        cases ha : m.any (fun q => q.1 == p.1)
        · rfl
        · exact absurd ((imAny_iff_mem m p.1).mp ha) hnotin
      have hins : imInsert m p.1 p.2 = m ++ [p] := by
        simp [imInsert, hany]
      have hnd2 : ((m ++ [p] ++ r).map (fun q => q.1)).Nodup := by
        simpa [List.append_assoc] using hnd
      show imExtend (imInsert m p.1 p.2) r = m ++ p :: r
      rw [hins, ih (m ++ [p]) hnd2, List.append_assoc]
      rfl

/-- Collecting pairs with pairwise-distinct keys into an `IndexMap` keeps
them unchanged, in order. -/
theorem imCollect_eq_self (l : List (String × α))
    (hnd : (l.map (fun p => p.1)).Nodup) : imCollect l = l := by
  have h := imExtend_nodup_append [] l (by simpa using hnd)
  simpa using h

/-- C7: when the fetch phase succeeds with entry list `es` whose keys are
pairwise distinct (as `parse` guarantees), `process_entries` with no
overrides returns exactly the `(key, value)` pairs of the entries whose
value is present, in original declaration order — entries with no value
are dropped.  In particular the input `KEY1=value1\nKEY2=` parses with
`KEY2` valueless (an empty declared value becomes an absent default) and
resolves to the single pair `KEY1 -> value1`. -/
theorem C7_present_values_in_order (entries es : List EnvEntry)
    (ph : String → Option String)
    (smP psP : List String → Except Error (List (Option String)))
    (hfetch : fetchPhase entries ph smP psP = .ok es)
    (hnodup : (es.map (fun e => e.key)).Nodup) :
    process_entries entries [] ph smP psP = .ok (pairsOf es)
      ∧ parse "KEY1=value1\nKEY2="
          = .ok [⟨"KEY1", some "value1", none⟩, ⟨"KEY2", none, none⟩]
      ∧ process_entries [⟨"KEY1", some "value1", none⟩, ⟨"KEY2", none, none⟩] []
          (fun _ => none) (okProvider fun _ => none) (okProvider fun _ => none)
        = .ok [("KEY1", "value1")] := by
  refine ⟨?_, by decide, by decide⟩
  have hcol : imCollect (pairsOf es) = pairsOf es :=
    imCollect_eq_self _ (hnodup.sublist (pairsOf_keys_sublist es))
  simp [process_entries, hfetch, hcol, imExtend_nil]

/-- Witness for `C7_present_values_in_order` at a concrete entry list with
one present and one absent value and no secret directives. -/
theorem C7_witness :
    process_entries [⟨"K", some "v", none⟩, ⟨"M", none, none⟩] [] (fun _ => none)
        (okProvider fun _ => none) (okProvider fun _ => none)
      = .ok (pairsOf [⟨"K", some "v", none⟩, ⟨"M", none, none⟩])
      ∧ parse "KEY1=value1\nKEY2="
          = .ok [⟨"KEY1", some "value1", none⟩, ⟨"KEY2", none, none⟩]
      ∧ process_entries [⟨"KEY1", some "value1", none⟩, ⟨"KEY2", none, none⟩] []
          (fun _ => none) (okProvider fun _ => none) (okProvider fun _ => none)
        = .ok [("KEY1", "value1")] :=
  C7_present_values_in_order [⟨"K", some "v", none⟩, ⟨"M", none, none⟩]
    [⟨"K", some "v", none⟩, ⟨"M", none, none⟩] (fun _ => none)
    (okProvider fun _ => none) (okProvider fun _ => none) (by decide) (by decide)

/-! ### C9: env-formatter round trip

Embeds `EnvFormatter::format` from src/formatters.rs: each `(key, value)`
pair is rendered as `KEY={serde_json::to_string(value)}\n`.  The JSON
string serialisation escapes the quote and the backslash with a backslash,
uses the short escapes for backspace, tab, newline, form feed and carriage
return, renders the remaining control characters as `\u00XX` with
lowercase hex digits, and emits every other character verbatim. -/

def hexDigit (n : Nat) : Char :=
  if n < 10 then Char.ofNat (48 + n) else Char.ofNat (87 + n)

def jsonEscapeChar (c : Char) : List Char :=
  if c = '"' then ['\\', '"']
  else if c = '\\' then ['\\', '\\']
  else if c = Char.ofNat 8 then ['\\', 'b']
  else if c = '\t' then ['\\', 't']
  else if c = '\n' then ['\\', 'n']
  else if c = Char.ofNat 12 then ['\\', 'f']
  else if c = '\r' then ['\\', 'r']
  else if c.toNat < 32 then
    ['\\', 'u', '0', '0', hexDigit (c.toNat / 16), hexDigit (c.toNat % 16)]
  else [c]

def jsonEscape : List Char → List Char
  | [] => []
  | c :: r => jsonEscapeChar c ++ jsonEscape r

/-- The characters of `serde_json::to_string` of a string value. -/
def jsonStringChars (v : String) : List Char :=
  '"' :: (jsonEscape v.toList ++ ['"'])

def jsonString (v : String) : String := String.mk (jsonStringChars v)

def envFormatChars : List (String × String) → List Char
  | [] => []
  | (k, v) :: r => k.toList ++ '=' :: (jsonStringChars v ++ '\n' :: envFormatChars r)

/-- `EnvFormatter::format`. -/
def envFormat (pairs : List (String × String)) : String :=
  String.mk (envFormatChars pairs)

/-- C9 counterexample: the value `a\b` (one backslash) renders as
`KEY1="a\\b"`, but the parser's unescaping only rewrites `\"` pairs, so
the re-parsed value is `a\\b` (two backslashes): the round trip loses
backslash-containing values. -/
theorem C9_counterexample :
    parse "KEY1=a\\b" = .ok [⟨"KEY1", some "a\\b", none⟩]
    ∧ envFormat (pairsOf [⟨"KEY1", some "a\\b", none⟩]) = "KEY1=\"a\\\\b\"\n"
    ∧ parse "KEY1=\"a\\\\b\"\n" = .ok [⟨"KEY1", some "a\\\\b", none⟩]
    ∧ ("a\\\\b" : String) ≠ "a\\b" := by decide

/-- A value is render-safe when it has no backslash and no control
character: its JSON escaping then touches only quotes. -/
def safeChar (c : Char) : Prop := c ≠ '\\' ∧ 32 ≤ c.toNat

theorem isWordChar_ne (c c0 : Char) (h : isWordChar c = true)
    (h0 : isWordChar c0 = false) : c ≠ c0 := by
  intro he
  rw [he, h0] at h
  exact Bool.noConfusion h

theorem isWordChar_not_space (c : Char) (h : isWordChar c = true) :
    isSpaceChar c = false := by
  cases hs : isSpaceChar c with
  | false => rfl
  | true =>
      simp only [isSpaceChar, Bool.or_eq_true, decide_eq_true_eq] at hs
      rcases hs with (rfl | rfl) | rfl <;> exact absurd h (by decide)

theorem jsonEscapeChar_quote : jsonEscapeChar '"' = ['\\', '"'] := rfl

theorem jsonEscapeChar_safe (c : Char) (hq : c ≠ '"') (hc : safeChar c) :
    jsonEscapeChar c = [c] := by
  obtain ⟨hbs, hge⟩ := hc
  rw [jsonEscapeChar, if_neg hq, if_neg hbs,
    if_neg (fun he => by rw [he] at hge; exact absurd hge (by decide)),
    if_neg (fun he => by rw [he] at hge; exact absurd hge (by decide)),
    if_neg (fun he => by rw [he] at hge; exact absurd hge (by decide)),
    if_neg (fun he => by rw [he] at hge; exact absurd hge (by decide)),
    if_neg (fun he => by rw [he] at hge; exact absurd hge (by decide)),
    if_neg (Nat.not_lt.mpr hge)]

theorem jsonEscape_safe_cons (c : Char) (r : List Char) (hc : safeChar c) :
    jsonEscape (c :: r)
      = (if c = '"' then ['\\', '"'] else [c]) ++ jsonEscape r := by
  by_cases hq : c = '"'
  · rw [if_pos hq, hq]
    rfl
  · rw [if_neg hq, jsonEscape, jsonEscapeChar_safe c hq hc]

theorem jsonEscape_mem (c2 : Char) (v : List Char) (hsafe : ∀ c ∈ v, safeChar c)
    (h : c2 ∈ jsonEscape v) : c2 = '\\' ∨ c2 = '"' ∨ c2 ∈ v := by
  induction v with
  | nil => exact absurd h (List.not_mem_nil c2)
  | cons c r ih =>
      rw [jsonEscape_safe_cons c r (hsafe c (List.mem_cons_self c r))] at h
      have hr : ∀ c3 ∈ r, safeChar c3 :=
        fun c3 h3 => hsafe c3 (List.mem_cons_of_mem c h3)
      rcases List.mem_append.mp h with h1 | h2
      · by_cases hq : c = '"'
        · rw [if_pos hq] at h1
          rcases List.mem_cons.mp h1 with rfl | h1
          · exact Or.inl rfl
          · rcases List.mem_cons.mp h1 with rfl | h1
            · exact Or.inr (Or.inl rfl)
            · exact absurd h1 (List.not_mem_nil c2)
        · rw [if_neg hq] at h1
          rcases List.mem_cons.mp h1 with rfl | h1
          · exact Or.inr (Or.inr (List.mem_cons_self c2 r))
          · exact absurd h1 (List.not_mem_nil c2)
      · rcases ih hr h2 with h3 | h3 | h3
        · exact Or.inl h3
        · exact Or.inr (Or.inl h3)
        · exact Or.inr (Or.inr (List.mem_cons_of_mem c h3))

/-- Scanning the JSON-escaped form of a safe value consumes exactly it,
stopping at the plain closing quote. -/
theorem scanQuoted_jsonEscape (v : List Char) (rem : List Char)
    (hsafe : ∀ c ∈ v, safeChar c) :
    scanQuoted '"' (jsonEscape v ++ '"' :: rem) = .ok (jsonEscape v, rem) := by
  induction v with
  | nil =>
      show scanQuoted '"' ('"' :: rem) = .ok ([], rem)
      rw [scanQuoted.eq_def]
      simp
  | cons c r ih =>
      have hc := hsafe c (List.mem_cons_self c r)
      have hr : ∀ c3 ∈ r, safeChar c3 :=
        fun c3 h3 => hsafe c3 (List.mem_cons_of_mem c h3)
      rw [jsonEscape_safe_cons c r hc]
      by_cases hq : c = '"'
      · rw [if_pos hq]
        show scanQuoted '"' ('\\' :: '"' :: (jsonEscape r ++ '"' :: rem))
          = .ok ('\\' :: '"' :: jsonEscape r, rem)
        rw [scanQuoted.eq_def]
        simp [ih hr]
      · rw [if_neg hq]
        show scanQuoted '"' (c :: (jsonEscape r ++ '"' :: rem))
          = .ok (c :: jsonEscape r, rem)
        rw [scanQuoted.eq_def]
        simp [hq, hc.1, ih hr]

theorem unescapeDelim_cons_nonbs (d c : Char) (l : List Char) (h : c ≠ '\\') :
    unescapeDelim d (c :: l) = c :: unescapeDelim d l := by
  cases l with
  | nil => rfl
  | cons c2 r =>
      rw [unescapeDelim, if_neg (fun hp => h hp.1)]

/-- Unescaping the JSON-escaped form of a safe value recovers the value:
only `\"` pairs were introduced and only they are rewritten. -/
theorem unescapeDelim_jsonEscape (v : List Char) (hsafe : ∀ c ∈ v, safeChar c) :
    unescapeDelim '"' (jsonEscape v) = v := by
  induction v with
  | nil => rfl
  | cons c r ih =>
      have hc := hsafe c (List.mem_cons_self c r)
      have hr : ∀ c3 ∈ r, safeChar c3 :=
        fun c3 h3 => hsafe c3 (List.mem_cons_of_mem c h3)
      rw [jsonEscape_safe_cons c r hc]
      by_cases hq : c = '"'
      · rw [if_pos hq]
        show unescapeDelim '"' ('\\' :: '"' :: jsonEscape r) = c :: r
        rw [unescapeDelim, if_pos ⟨rfl, rfl⟩, ih hr, hq]
      · rw [if_neg hq]
        show unescapeDelim '"' (c :: jsonEscape r) = c :: r
        rw [unescapeDelim_cons_nonbs _ _ _ hc.1, ih hr]

theorem splitLines_append (a rest : List Char) (h : '\n' ∉ a) :
    splitLines (a ++ '\n' :: rest) = a :: splitLines rest := by
  induction a with
  | nil => simp [splitLines]
  | cons c a2 ih =>
      have hc : c ≠ '\n' := fun he => h (he ▸ List.mem_cons_self c a2)
      have h2 : '\n' ∉ a2 := fun hm => h (List.mem_cons_of_mem c hm)
      show splitLines (c :: (a2 ++ '\n' :: rest)) = (c :: a2) :: splitLines rest
      rw [splitLines, if_neg hc, ih h2]

theorem splitSep_prefix (a rest : List Char) (h : ∀ c ∈ a, c ≠ '=' ∧ c ≠ ':') :
    splitSep (a ++ '=' :: rest) = some (a, rest) := by
  induction a with
  | nil => simp [splitSep]
  | cons c a2 ih =>
      have hc := h c (List.mem_cons_self c a2)
      have h2 : ∀ c3 ∈ a2, c3 ≠ '=' ∧ c3 ≠ ':' :=
        fun c3 h3 => h c3 (List.mem_cons_of_mem c h3)
      show splitSep (c :: (a2 ++ '=' :: rest)) = some (c :: a2, rest)
      rw [splitSep, if_neg (fun hp => hp.elim hc.1 hc.2), ih h2]

theorem dropWhile_nosp_cons (c : Char) (l : List Char) (h : isSpaceChar c = false) :
    (c :: l).dropWhile isSpaceChar = c :: l := by
  rw [List.dropWhile_cons, h]
  simp

theorem trimChars_nosp (c1 c2 : Char) (a : List Char)
    (h1 : isSpaceChar c1 = false) (h2 : isSpaceChar c2 = false) :
    trimChars (c1 :: (a ++ [c2])) = c1 :: (a ++ [c2]) := by
  rw [trimChars, dropWhile_nosp_cons _ _ h1]
  rw [show (c1 :: (a ++ [c2])).reverse = c2 :: (a.reverse ++ [c1]) by simp]
  rw [dropWhile_nosp_cons _ _ h2]
  simp

theorem trimChars_nosp_all (l : List Char) (h : ∀ c ∈ l, isSpaceChar c = false) :
    trimChars l = l := by
  have hdw : ∀ l2 : List Char, (∀ c ∈ l2, isSpaceChar c = false) →
      l2.dropWhile isSpaceChar = l2 := by
    intro l2 h2
    cases l2 with
    | nil => rfl
    | cons c r => exact dropWhile_nosp_cons c r (h2 c (List.mem_cons_self c r))
  rw [trimChars, hdw l h, hdw l.reverse (fun c hc => h c (List.mem_reverse.mp hc))]
  simp

theorem stripExport_wordchars (l : List Char) (h : l.all isKeyChar = true) :
    stripExport l = l := by
  rw [stripExport]
  by_cases hp : "export".toList.isPrefixOf l
  · rw [if_pos hp]
    cases hd : l.drop 6 with
    | nil => rfl
    | cons c rest2 =>
        have hc : c ∈ l := List.mem_of_mem_drop (hd ▸ List.mem_cons_self c rest2)
        have hw : isKeyChar c = true := List.all_eq_true.mp h c hc
        simp [isWordChar_not_space c hw]
  · rw [if_neg hp]

def validKey (k : String) : Prop := k.toList ≠ [] ∧ k.toList.all isKeyChar = true

/-- The characters of one rendered output line (without the newline). -/
def renderLine (p : String × String) : List Char :=
  p.1.toList ++ '=' :: ('"' :: (jsonEscape p.2.toList ++ ['"']))

/-- The declaration a rendered line lexes back to. -/
def renderDecl (p : String × String) : RawDecl :=
  ⟨p.1, .dquote, String.mk (jsonEscape p.2.toList), none⟩

theorem strMk_toList (s : String) : String.mk s.toList = s := by
  cases s
  rfl

theorem envFormatChars_cons (p : String × String) (r : List (String × String)) :
    envFormatChars (p :: r) = renderLine p ++ '\n' :: envFormatChars r := by
  cases p with
  | mk k v => simp [envFormatChars, renderLine, jsonStringChars]

theorem renderLine_no_newline (p : String × String) (hk : validKey p.1)
    (hs : ∀ c ∈ p.2.toList, safeChar c) : '\n' ∉ renderLine p := by
  intro hm
  rcases List.mem_append.mp hm with h1 | h2
  · exact absurd (List.all_eq_true.mp hk.2 _ h1) (by decide)
  · rcases List.mem_cons.mp h2 with he | h3
    · exact absurd he (by decide)
    · rcases List.mem_cons.mp h3 with he | h4
      · exact absurd he (by decide)
      · rcases List.mem_append.mp h4 with h5 | h6
        · rcases jsonEscape_mem _ _ hs h5 with he | he | hv
          · exact absurd he (by decide)
          · exact absurd he (by decide)
          · exact absurd (hs _ hv).2 (by decide)
        · rcases List.mem_cons.mp h6 with he | h7
          · exact absurd he (by decide)
          · exact absurd h7 (List.not_mem_nil _)

theorem splitLines_envFormat (pairs : List (String × String))
    (h : ∀ p ∈ pairs, validKey p.1 ∧ ∀ c ∈ p.2.toList, safeChar c) :
    splitLines (envFormatChars pairs) = pairs.map renderLine ++ [[]] := by
  induction pairs with
  | nil => rfl
  | cons p r ih =>
      have hp := h p (List.mem_cons_self p r)
      have hr : ∀ q ∈ r, validKey q.1 ∧ ∀ c ∈ q.2.toList, safeChar c :=
        fun q hq => h q (List.mem_cons_of_mem p hq)
      rw [envFormatChars_cons,
        splitLines_append _ _ (renderLine_no_newline p hp.1 hp.2), ih hr]
      rfl

theorem lexValue_render (v : String) (hs : ∀ c ∈ v.toList, safeChar c) :
    lexValue ('"' :: (jsonEscape v.toList ++ ['"']))
      = .ok (.dquote, jsonEscape v.toList) := by
  have hdw : ('"' :: (jsonEscape v.toList ++ ['"'])).dropWhile isSpaceChar
      = '"' :: (jsonEscape v.toList ++ ['"']) :=
    dropWhile_nosp_cons _ _ (by decide)
  have hscan : scanQuoted '"' (jsonEscape v.toList ++ ['"'])
      = .ok (jsonEscape v.toList, []) :=
    scanQuoted_jsonEscape v.toList [] hs
  simp only [lexValue, hdw]
  have hscan2 : scanQuoted '"' (jsonEscape v.data ++ ['"'])
      = Except.ok (jsonEscape v.data, ([] : List Char)) := hscan
  simp [hscan, hscan2, checkAfterValue]

theorem lexDeclLine_render (p : String × String) (hk : validKey p.1)
    (hs : ∀ c ∈ p.2.toList, safeChar c) :
    lexDeclLine (renderLine p)
      = .ok (p.1, .dquote, String.mk (jsonEscape p.2.toList)) := by
  obtain ⟨hkne, hkall⟩ := hk
  have hkw : ∀ c ∈ p.1.toList, isKeyChar c = true :=
    fun c hc => List.all_eq_true.mp hkall c hc
  have hsep : splitSep (renderLine p)
      = some (p.1.toList, '"' :: (jsonEscape p.2.toList ++ ['"'])) := by
    have hns : ∀ c ∈ p.1.toList, c ≠ '=' ∧ c ≠ ':' := fun c hc =>
      ⟨isWordChar_ne c '=' (hkw c hc) (by decide),
       isWordChar_ne c ':' (hkw c hc) (by decide)⟩
    exact splitSep_prefix _ _ hns
  have htrimk : trimChars p.1.toList = p.1.toList :=
    trimChars_nosp_all _ (fun c hc => isWordChar_not_space c (hkw c hc))
  have hstrip : stripExport p.1.toList = p.1.toList :=
    stripExport_wordchars _ hkall
  simp only [lexDeclLine, hsep, htrimk, hstrip, lexValue_render p.2 hs]
  simp [strMk_toList]
  exact ⟨hkne, fun x hx => hkw x hx⟩

theorem classifyLine_render (p : String × String) (hk : validKey p.1)
    (hs : ∀ c ∈ p.2.toList, safeChar c) :
    classifyLine (renderLine p)
      = .ok (.decl p.1 .dquote (String.mk (jsonEscape p.2.toList))) := by
  obtain ⟨hkne, hkall⟩ := hk
  have hkw : ∀ c ∈ p.1.toList, isKeyChar c = true :=
    fun c hc => List.all_eq_true.mp hkall c hc
  cases hkl : p.1.toList with
  | nil => exact absurd hkl hkne
  | cons kc krest =>
      have hkcw : isKeyChar kc = true :=
        hkw kc (by rw [hkl]; exact List.mem_cons_self kc krest)
      have hshape : renderLine p
          = kc :: ((krest ++ '=' :: '"' :: jsonEscape p.2.toList) ++ ['"']) := by
        rw [renderLine, hkl]
        simp
      have htrim : trimChars (renderLine p) = renderLine p := by
        rw [hshape]
        exact trimChars_nosp _ _ _ (isWordChar_not_space kc hkcw) (by decide)
      have hnh : kc ≠ '#' := isWordChar_ne kc '#' hkcw (by decide)
      have hdecl := lexDeclLine_render p ⟨hkne, hkall⟩ hs
      rw [hshape] at hdecl
      simp only [classifyLine]
      rw [htrim, hshape]
      have hdecl2 : lexDeclLine (kc :: (krest ++ '=' :: '"' :: (jsonEscape p.2.data ++ ['"'])))
          = Except.ok (p.1, ValueRule.dquote, String.mk (jsonEscape p.2.data)) := by
        simpa using hdecl
      simp [hnh, hdecl2]

theorem lexLinesGo_render (pairs : List (String × String))
    (h : ∀ p ∈ pairs, validKey p.1 ∧ ∀ c ∈ p.2.toList, safeChar c) :
    lexLinesGo none (pairs.map renderLine ++ [[]]) = .ok (pairs.map renderDecl) := by
  induction pairs with
  | nil => rfl
  | cons p r ih =>
      have hp := h p (List.mem_cons_self p r)
      have hr : ∀ q ∈ r, validKey q.1 ∧ ∀ c ∈ q.2.toList, safeChar c :=
        fun q hq => h q (List.mem_cons_of_mem p hq)
      show lexLinesGo none (renderLine p :: (r.map renderLine ++ [[]]))
        = .ok (renderDecl p :: r.map renderDecl)
      simp only [lexLinesGo, classifyLine_render p hp.1 hp.2, ih hr]
      rfl

theorem buildEntries_eq (ds : List RawDecl) :
    buildEntries ds = imCollect (ds.map (fun d => (d.key, toEntry d))) := by
  show ds.foldl (fun m d => imInsert m d.key (toEntry d)) []
    = (ds.map (fun d => (d.key, toEntry d))).foldl
        (fun acc p => imInsert acc p.1 p.2) []
  rw [List.foldl_map]

theorem parse_envFormat (pairs : List (String × String))
    (h : ∀ p ∈ pairs, validKey p.1 ∧ ∀ c ∈ p.2.toList, safeChar c)
    (hnd : (pairs.map (fun p => p.1)).Nodup) :
    parse (envFormat pairs) = .ok (pairs.map (fun p => toEntry (renderDecl p))) := by
  have hlex : lexEntries (envFormat pairs) = .ok (pairs.map renderDecl) := by
    rw [lexEntries, show (envFormat pairs).toList = envFormatChars pairs from rfl,
      splitLines_envFormat pairs h]
    exact lexLinesGo_render pairs h
  have hkeys : (((pairs.map renderDecl).map (fun d => (d.key, toEntry d))).map
      (fun q => q.1)) = pairs.map (fun p => p.1) := by
    simp [renderDecl]
  have hcol : imCollect ((pairs.map renderDecl).map (fun d => (d.key, toEntry d)))
      = (pairs.map renderDecl).map (fun d => (d.key, toEntry d)) :=
    imCollect_eq_self _ (by rw [hkeys]; exact hnd)
  rw [parse, hlex]
  show Except.ok ((buildEntries (pairs.map renderDecl)).map (fun p => p.2)) = _
  rw [buildEntries_eq, hcol]
  simp

theorem toEntry_renderDecl (p : String × String) (hne : p.2.toList ≠ [])
    (hs : ∀ c ∈ p.2.toList, safeChar c) :
    toEntry (renderDecl p) = ⟨p.1, some p.2, none⟩ := by
  show ({ key := p.1,
          value := if unescapeDelim '"' (jsonEscape p.2.toList) = [] then none
            else some (String.mk (unescapeDelim '"' (jsonEscape p.2.toList))),
          secret := none } : EnvEntry) = _
  rw [unescapeDelim_jsonEscape _ hs, if_neg hne, strMk_toList]

theorem pairsOf_pairs (pairs : List (String × String)) :
    pairsOf (pairs.map (fun p => (⟨p.1, some p.2, none⟩ : EnvEntry))) = pairs := by
  induction pairs with
  | nil => rfl
  | cons p r ih =>
      show (p.1, p.2) :: pairsOf (r.map (fun q => (⟨q.1, some q.2, none⟩ : EnvEntry)))
        = p :: r
      rw [ih]

theorem imInsert_mem (m : List (String × α)) (k : String) (v : α)
    (p0 : String × α) (h : p0 ∈ imInsert m k v) : p0 ∈ m ∨ p0 = (k, v) := by
  rw [imInsert] at h
  by_cases ha : m.any (fun p => p.1 == k) = true
  · rw [if_pos ha] at h
    obtain ⟨q, hq, he⟩ := List.mem_map.mp h
    by_cases hqk : q.1 == k
    · rw [if_pos hqk] at he
      exact Or.inr he.symm
    · rw [if_neg hqk] at he
      exact Or.inl (he ▸ hq)
  · rw [if_neg ha] at h
    rcases List.mem_append.mp h with h1 | h2
    · exact Or.inl h1
    · exact Or.inr (List.mem_singleton.mp h2)

theorem buildFold_mem (ds : List RawDecl) :
    ∀ (m : List (String × EnvEntry)) (p0 : String × EnvEntry),
      p0 ∈ ds.foldl (fun m d => imInsert m d.key (toEntry d)) m →
      p0 ∈ m ∨ ∃ d ∈ ds, p0 = (d.key, toEntry d) := by
  induction ds with
  | nil => exact fun m p0 h => Or.inl h
  | cons d r ih =>
      intro m p0 h
      rcases ih _ p0 h with h1 | ⟨d2, hd2, he⟩
      · rcases imInsert_mem _ _ _ _ h1 with h2 | h2
        · exact Or.inl h2
        · exact Or.inr ⟨d, List.mem_cons_self d r, h2⟩
      · exact Or.inr ⟨d2, List.mem_cons_of_mem d hd2, he⟩

theorem lexDeclLine_key (l : List Char) (k : String) (rule : ValueRule)
    (raw : String) (h : lexDeclLine l = .ok (k, rule, raw)) : validKey k := by
  simp only [lexDeclLine] at h
  split at h
  · exact Except.noConfusion h
  · rename_i before after heq
    split at h
    · rename_i hcond
      split at h
      · exact Except.noConfusion h
      · rename_i rule2 raw2 heq2
        obtain ⟨h1, h2, h3⟩ := Prod.mk.injEq .. ▸ Except.ok.inj h
        refine ⟨?_, ?_⟩
        · rw [← h1]
          exact hcond.1
        · rw [← h1]
          exact hcond.2
    · exact Except.noConfusion h

theorem classifyLine_decl_key (l : List Char) (k : String) (rule : ValueRule)
    (raw : String) (h : classifyLine l = .ok (.decl k rule raw)) : validKey k := by
  simp only [classifyLine] at h
  split at h
  · exact LineKind.noConfusion (Except.ok.inj h)
  · rename_i c rest heq
    split at h
    · split at h <;> exact LineKind.noConfusion (Except.ok.inj h)
    · split at h
      · exact Except.noConfusion h
      · rename_i k2 rule2 raw2 heq2
        obtain ⟨hk, hr, hw⟩ := LineKind.decl.inj (Except.ok.inj h)
        exact hk ▸ lexDeclLine_key _ _ _ _ heq2

theorem lexLinesGo_keys (ls : List (List Char)) :
    ∀ (pending : Option SecretConfig) (ds : List RawDecl),
      lexLinesGo pending ls = .ok ds → ∀ d ∈ ds, validKey d.key := by
  induction ls with
  | nil =>
      intro pending ds h d hd
      obtain rfl := (Except.ok.inj h)
      exact absurd hd (List.not_mem_nil d)
  | cons l rest ih =>
      intro pending ds h d hd
      simp only [lexLinesGo] at h
      split at h
      · exact Except.noConfusion h
      · exact ih pending ds h d hd
      · exact ih pending ds h d hd
      · rename_i cfg heq
        exact ih (some cfg) ds h d hd
      · rename_i k rule raw heq
        split at h
        · exact Except.noConfusion h
        · rename_i ds2 heq2
          obtain rfl := Except.ok.inj h
          rcases List.mem_cons.mp hd with rfl | hd2
          · exact classifyLine_decl_key l k rule raw heq
          · exact ih none ds2 heq2 d hd2

theorem toEntry_value_ne (d : RawDecl) (s : String)
    (h : (toEntry d).value = some s) : s.toList ≠ [] := by
  simp only [toEntry] at h
  split at h
  · exact Option.noConfusion h
  · rename_i hne
    obtain rfl := Option.some.inj h
    exact fun he => hne he

/-- Invariants of every successful parse: output keys are pairwise
distinct, every key is a nonempty identifier, and every present value is
nonempty. -/
theorem parse_inv (input : String) (es : List EnvEntry)
    (h : parse input = .ok es) :
    (es.map (fun e => e.key)).Nodup
    ∧ (∀ e ∈ es, validKey e.key)
    ∧ (∀ e ∈ es, ∀ s, e.value = some s → s.toList ≠ []) := by
  simp only [parse] at h
  split at h
  · exact Except.noConfusion h
  · rename_i ds heq
    obtain rfl := Except.ok.inj h
    have heq2 : lexLinesGo none (splitLines input.toList) = .ok ds := heq
    have h1 : ∀ p ∈ buildEntries ds, p.2.key = p.1 :=
      buildFold_snd_key ds [] (fun p hp => absurd hp (List.not_mem_nil p))
    have hbkeys : (buildEntries ds).map (fun p => p.1)
        = dedupFirst (ds.map (fun d => d.key)) := by
      have h2 := buildFold_keys ds []
      simpa using h2
    refine ⟨?_, ?_, ?_⟩
    · rw [List.map_map,
        show ((fun e : EnvEntry => e.key) ∘ fun p : String × EnvEntry => p.2)
          = fun p : String × EnvEntry => p.2.key from rfl,
        List.map_congr_left h1, hbkeys]
      exact (dedupNew_nodup_notmem _ []).1
    · intro e he
      obtain ⟨p, hp, rfl⟩ := List.mem_map.mp he
      rcases buildFold_mem ds [] p hp with h0 | ⟨d, hd, rfl⟩
      · exact absurd h0 (List.not_mem_nil p)
      · exact lexLinesGo_keys _ none ds heq2 d hd
    · intro e he s hv
      obtain ⟨p, hp, rfl⟩ := List.mem_map.mp he
      rcases buildFold_mem ds [] p hp with h0 | ⟨d, hd, rfl⟩
      · exact absurd h0 (List.not_mem_nil p)
      · exact toEntry_value_ne d s hv

/-- C9 (amended): for every input that parses, if the present values
contain no backslash and no control character, then rendering the
`(key, value)` pairs with the env formatter and re-parsing reconstructs
exactly the same `(key, value)` pairs (directive metadata is lost).  The
restriction is necessary: the formatter JSON-escapes backslashes and
control characters but the parser only unescapes `\"`, so such values do
not survive the round trip (see the counterexample). -/
theorem C9_round_trip_safe (input : String) (es : List EnvEntry)
    (hparse : parse input = .ok es)
    (hsafe : ∀ p ∈ pairsOf es, ∀ c ∈ (p.2 : String).toList, safeChar c) :
    ∃ es2, parse (envFormat (pairsOf es)) = .ok es2 ∧ pairsOf es2 = pairsOf es := by
  obtain ⟨hnd, hkeys, hvals⟩ := parse_inv input es hparse
  have hpair : ∀ p ∈ pairsOf es, validKey p.1 ∧ ∀ c ∈ p.2.toList, safeChar c := by
    intro p hp
    obtain ⟨e, he, hfe⟩ := List.mem_filterMap.mp hp
    refine ⟨?_, hsafe p hp⟩
    cases hv : e.value with
    | none =>
        rw [hv] at hfe
        exact absurd hfe (by simp)
    | some v =>
        rw [hv] at hfe
        obtain rfl := Option.some.inj hfe
        exact hkeys e he
  have hne : ∀ p ∈ pairsOf es, p.2.toList ≠ [] := by
    intro p hp
    obtain ⟨e, he, hfe⟩ := List.mem_filterMap.mp hp
    cases hv : e.value with
    | none =>
        rw [hv] at hfe
        exact absurd hfe (by simp)
    | some v =>
        rw [hv] at hfe
        obtain rfl := Option.some.inj hfe
        exact hvals e he v hv
  have hndp : ((pairsOf es).map (fun p => p.1)).Nodup :=
    hnd.sublist (pairsOf_keys_sublist es)
  refine ⟨(pairsOf es).map (fun p => toEntry (renderDecl p)),
    parse_envFormat _ hpair hndp, ?_⟩
  have hmc : (pairsOf es).map (fun p => toEntry (renderDecl p))
      = (pairsOf es).map (fun p => (⟨p.1, some p.2, none⟩ : EnvEntry)) :=
    List.map_congr_left
      (fun p hp => toEntry_renderDecl p (hne p hp) (fun c hc => hsafe p hp c hc))
  rw [hmc]
  exact pairsOf_pairs (pairsOf es)

/-- Witness for `C9_round_trip_safe` at the input `K="a\"b"` (the value
`a"b` exercises the quote escaping). -/
theorem C9_witness :
    ∃ es2, parse (envFormat (pairsOf [⟨"K", some "a\"b", none⟩])) = .ok es2
      ∧ pairsOf es2 = pairsOf [⟨"K", some "a\"b", none⟩] :=
  C9_round_trip_safe "K=\"a\\\"b\"" [⟨"K", some "a\"b", none⟩]
    (by decide) (by simp only [safeChar]; decide)
